import Mathlib

/-!
Verification development for `lsh.go`.

A shallow embedding of the locality-sensitive-hashing index of `lsh.go`
(`NewLshSettings`, `Hash`, `Insert`, `Query`) together with theorems about it.

Modelling conventions.

* Go `int` parameters are `Int`; a `make` that refuses its length is the
  runtime panic `Panic.makesliceLenOutOfRange`, an index past the end of a
  slice is `Panic.indexOutOfRange`.
* `float64` arithmetic, `fmt.Sprintf("%.16x", hv)`, the method `Point.dot`
  and the `math/rand` source are not defined in `lsh.go`; they are the
  fields of `Env`, and every theorem with an `Env` argument holds for every
  `Env`. Two environments serve to evaluate the definitions on concrete
  inputs: `intEnv` over the integers and `fracEnv` with exact arithmetic on
  fractions and the hexadecimal floating-point rendering of Go.
* A Go map is a function from keys to optional values (`GoMap`): `lsh.go`
  only looks keys up and stores under keys, it never iterates over a map.
* A method with a pointer receiver returns the receiver after the call
  together with the panic that interrupted it, if any: what was written
  before a panic stays written.
* The channel `out` of `Query` is the list of the values sent on it, in the
  order of the sends.
* The generator of `NewLshSettings` is passed through its loops. Where the
  other random sources of the program matter, the generators live in a store
  (`RandWorld`) and `NewLshSettingsIn` is the same function as a step on it.
-/

namespace Lsh

/-- Runtime panics that `lsh.go` can raise. -/
inductive Panic where
  | indexOutOfRange
  | makesliceLenOutOfRange
  deriving DecidableEq, Repr

/-- The length `len` is one that `make` refuses for a slice of which at most
`limit` elements can be allocated: a negative length, or a length above the
limit (`panic: runtime error: makeslice: len out of range`). -/
@[reducible] def makeRejects (limit : Nat) (len : Int) : Prop :=
  len < 0 ∨ (limit : Int) < len

/-- The type `Key` of `lsh.go`: fingerprints (`hvs[i] = s`, a string) and the
identifiers stored in the buckets (`[]Key`) share it. -/
abbrev Key := String

/-- A Go `map[Key]V`. -/
abbrev GoMap (V : Type) := Key → Option V

namespace GoMap

/-- The map returned by `make(map[Key]V)`. -/
def empty {V : Type} : GoMap V := fun _ => none

/-- The statement `m[k] = v`. -/
def set {V : Type} (m : GoMap V) (k : Key) (v : V) : GoMap V :=
  fun k1 => if k1 = k then some v else m k1

end GoMap

/-- One hash table: `map[Key][]Key`, from fingerprint to bucket. -/
abbrev Table := GoMap (List Key)

/-- The operations `lsh.go` uses without defining them: `float64` with its
arithmetic, `fmt.Sprintf("%.16x", _)`, the method `dot` of `Point` and the
pseudo-random source of `math/rand`; and the lengths up to which the runtime
allocates a slice, which depend on the platform. -/
structure Env where
  /-- Carrier of `float64`. -/
  F : Type
  /-- State of a `*rand.Rand`. -/
  R : Type
  add : F → F → F
  mul : F → F → F
  div : F → F → F
  /-- The method `point.dot(q)`; it may panic. -/
  dot : List F → List F → Except Panic F
  /-- The call `fmt.Sprintf("%.16x", hv)`. -/
  sprintf16x : F → String
  /-- The call `rand.New(rand.NewSource(seed))`. -/
  newSource : Int → R
  /-- The call `random.NormFloat64()`: the sample and the advanced source. -/
  normFloat64 : R → F × R
  /-- The call `random.Float64()`: the sample and the advanced source. -/
  float64 : R → F × R
  /-- The largest length with which `make` returns a slice whose elements are
  slices (`[][]Point`, `[][]float64`, `[]Point`). -/
  maxSlices : Nat
  /-- The largest length with which `make` returns a slice of `float64`
  (`[]float64`, `Point`). -/
  maxFloats : Nat

/-- The constant `rand_seed`. -/
def rand_seed : Int := 1

/-- A `Point`: a slice of `float64`. -/
abbrev Point (env : Env) := List env.F

end Lsh

/-- The struct `Lsh` of `lsh.go`: the fields named in the composite literal of
`NewLshSettings` and the field `tables` ranged over by `Insert` and `Query`.
Modelled from the spec: the declaration of the type is missing from `lsh.go`;
`tables` is a slice of `l` mappings from fingerprint to list of identifiers. -/
structure Lsh.Index (env : Lsh.Env) where
  dim : Int
  l : Int
  m : Int
  w : env.F
  a : List (List (Lsh.Point env))
  b : List (List env.F)
  tables : List Lsh.Table

namespace Lsh

/-- Indexing `xs[i]` of a slice: panics past the end. -/
def index {α : Type} (xs : List α) (i : Nat) : Except Panic α :=
  match xs[i]? with
  | some x => .ok x
  | none => .error .indexOutOfRange

/-! ## `NewLshSettings` -/

/-- The loop `for d := 0; d < dim; d++ { a[i][j][d] = random.NormFloat64() }`:
`n` draws, in order. -/
def drawPoint (env : Env) : Nat → env.R → Point env × env.R
  | 0, r => ([], r)
  | n + 1, r =>
    let (x, r1) := env.normFloat64 r
    let (xs, r2) := drawPoint env n r1
    (x :: xs, r2)

/-- The body of `for j := range a[i]`, run for the `n` remaining values of `j`:
`a[i][j] = make(Point, dim)`, the `dim` draws, then
`b[i][j] = random.Float64() * float64(w)`. -/
def drawRow (env : Env) (dim : Int) (w : env.F) :
    Nat → env.R → Except Panic ((List (Point env) × List env.F) × env.R)
  | 0, r => .ok (([], []), r)
  | n + 1, r =>
    if makeRejects env.maxFloats dim then .error .makesliceLenOutOfRange
    else
      let (p, r1) := drawPoint env dim.toNat r
      let (u, r2) := env.float64 r1
      match drawRow env dim w n r2 with
      | .error e => .error e
      | .ok ((ps, bs), r3) => .ok ((p :: ps, env.mul u w :: bs), r3)

/-- The body of `for i := range a`, run for the `n` remaining values of `i`:
`a[i] = make([]Point, m)`, `b[i] = make([]float64, m)`, then the loop over `j`. -/
def drawRows (env : Env) (dim m : Int) (w : env.F) :
    Nat → env.R → Except Panic ((List (List (Point env)) × List (List env.F)) × env.R)
  | 0, r => .ok (([], []), r)
  | n + 1, r =>
    if makeRejects env.maxSlices m ∨ makeRejects env.maxFloats m then
      .error .makesliceLenOutOfRange
    else
      match drawRow env dim w m.toNat r with
      | .error e => .error e
      | .ok ((ps, bs), r1) =>
        match drawRows env dim m w n r1 with
        | .error e => .error e
        | .ok ((a, b), r2) => .ok ((ps :: a, bs :: b), r2)

/-- The function `NewLshSettings`: `a := make([][]Point, l)` and
`b := make([][]float64, l)`, the generator `rand.New(rand.NewSource(rand_seed))`,
the loops, and the composite literal. The literal names `dim`, `l`, `m`, `a`,
`b` and `w`; `tables` is not named in it and keeps its zero value, the nil
slice. -/
def NewLshSettings (env : Env) (dim l m : Int) (w : env.F) : Except Panic (Index env) :=
  if makeRejects env.maxSlices l then .error .makesliceLenOutOfRange
  else
    match drawRows env dim m w l.toNat (env.newSource rand_seed) with
    | .error e => .error e
    | .ok ((a, b), _) =>
      .ok { dim := dim, l := l, m := m, a := a, b := b, w := w, tables := [] }

/-! ## `Hash` -/

/-- The expression `(point.dot(lsh.a[i][j]) + lsh.b[i][j]) / lsh.w`. -/
def hashValue (env : Env) (lsh : Index env) (point : Point env) (i j : Nat) :
    Except Panic env.F :=
  match index lsh.a i with
  | .error e => .error e
  | .ok ai =>
    match index ai j with
    | .error e => .error e
    | .ok aij =>
      match env.dot point aij with
      | .error e => .error e
      | .ok d =>
        match index lsh.b i with
        | .error e => .error e
        | .ok bi =>
          match index bi j with
          | .error e => .error e
          | .ok bij => .ok (env.div (env.add d bij) lsh.w)

/-- The loop `for j := 0; j < lsh.m; j++` of `Hash` for table `i`, with `n`
iterations left, the next one for `j`, and `s` the string built so far. -/
def hashLoop (env : Env) (lsh : Index env) (point : Point env) (i : Nat) :
    Nat → Nat → String → Except Panic Key
  | 0, _, s => .ok s
  | n + 1, j, s =>
    match hashValue env lsh point i j with
    | .error e => .error e
    | .ok hv => hashLoop env lsh point i n (j + 1) (s ++ env.sprintf16x hv)

/-- The loop `for i := range hvs` of `Hash`, with `n` iterations left, the next
one for `i`; each iteration starts from `s := ""` and stores `hvs[i] = s`. -/
def hashRows (env : Env) (lsh : Index env) (point : Point env) :
    Nat → Nat → Except Panic (List Key)
  | 0, _ => .ok []
  | n + 1, i =>
    match hashLoop env lsh point i lsh.m.toNat 0 "" with
    | .error e => .error e
    | .ok s =>
      match hashRows env lsh point n (i + 1) with
      | .error e => .error e
      | .ok rest => .ok (s :: rest)

/-- The method `Hash`: `hvs := make([]Key, lsh.l)`, then one fingerprint per
table. -/
def Hash (env : Env) (lsh : Index env) (point : Point env) : Except Panic (List Key) :=
  if lsh.l < 0 then .error .makesliceLenOutOfRange
  else hashRows env lsh point lsh.l.toNat 0

/-! ## `Insert` -/

/-- The body of the loop of `Insert` on one table, `hv` being `hvs[i]`:
`if _, exist := table[hv]; !exist { table[hv] = make([]Key, 0) }`, then
`table[hv] = append(table[hv], key)`. -/
def insertTable (table : Table) (hv key : Key) : Table :=
  let table1 : Table :=
    match table hv with
    | some _ => table
    | none => GoMap.set table hv []
  GoMap.set table1 hv ((table1 hv).getD [] ++ [key])

/-- The loop `for i, table := range lsh.tables` of `Insert`, on the tables not
yet visited, the next one having index `i`. Returns the tables after the loop
and the panic that stopped it, if any: `hvs[i]` panics when `hvs` has no
entry `i`, and the tables already visited keep what was appended to them. -/
def insertLoop (hvs : List Key) (key : Key) : Nat → List Table → List Table × Option Panic
  | _, [] => ([], none)
  | i, table :: rest =>
    match hvs[i]? with
    | none => (table :: rest, some .indexOutOfRange)
    | some hv =>
      let (rest1, e) := insertLoop hvs key (i + 1) rest
      (insertTable table hv key :: rest1, e)

/-- The method `Insert`: the receiver after the call and the panic that
interrupted the call, if any. -/
def Insert (env : Env) (lsh : Index env) (key : Key) (point : Point env) :
    Index env × Option Panic :=
  match Hash env lsh point with
  | .error e => (lsh, some e)
  | .ok hvs =>
    let (tables1, e) := insertLoop hvs key 0 lsh.tables
    ({ lsh with tables := tables1 }, e)

/-! ## `Query` -/

/-- The state of a running `Query`: the receiver, the local map `seens` and
the values sent on `out` so far, oldest first. -/
structure QueryState (env : Env) where
  lsh : Index env
  seens : GoMap Bool
  out : List Key

/-- The loop `for _, key := range candidates` of `Query`:
`if _, seen := seens[key]; !seen { seens[key] = true; out <- key }`. -/
def queryCandidates {env : Env} : List Key → QueryState env → QueryState env
  | [], st => st
  | key :: rest, st =>
    match st.seens key with
    | some _ => queryCandidates rest st
    | none =>
      queryCandidates rest
        { st with seens := GoMap.set st.seens key true, out := st.out ++ [key] }

/-- The loop `for i, table := range lsh.tables` of `Query`, on the tables not
yet visited, the next one having index `i`. Returns the state after the loop
and the panic that stopped it, if any (`hvs[i]` with no entry `i`). -/
def queryLoop {env : Env} (hvs : List Key) :
    Nat → List Table → QueryState env → QueryState env × Option Panic
  | _, [], st => (st, none)
  | i, table :: rest, st =>
    match hvs[i]? with
    | none => (st, some .indexOutOfRange)
    | some hv =>
      match table hv with
      | some candidates => queryLoop hvs (i + 1) rest (queryCandidates candidates st)
      | none => queryLoop hvs (i + 1) rest st

/-- The method `Query`: the final state (receiver, `seens`, values sent on
`out`) and the panic that interrupted the call, if any. -/
def Query (env : Env) (lsh : Index env) (q : Point env) : QueryState env × Option Panic :=
  match Hash env lsh q with
  | .error e => ({ lsh := lsh, seens := GoMap.empty, out := [] }, some e)
  | .ok hvs => queryLoop hvs 0 lsh.tables { lsh := lsh, seens := GoMap.empty, out := [] }

/-! ## An environment for evaluating the definitions

`float64` is replaced by `Int` and the random source by a counter. It is used
only to run the definitions on concrete inputs. -/

/-- Decimal rendering of an integer, standing in for `fmt.Sprintf`. -/
def intSprintf (x : Int) : String :=
  if x < 0 then "-" ++ toString x.natAbs ++ ";" else toString x.natAbs ++ ";"

/-- Sum of the products of the coordinates of the first point with those of
the second; a coordinate missing from the second is an index out of range. -/
def intDot : List Int → List Int → Except Panic Int
  | [], _ => .ok 0
  | _ :: _, [] => .error .indexOutOfRange
  | x :: xs, y :: ys =>
    match intDot xs ys with
    | .error e => .error e
    | .ok d => .ok (x * y + d)

/-- An environment over the integers. -/
@[reducible] def intEnv : Env where
  F := Int
  R := Nat
  add := fun x y => x + y
  mul := fun x y => x * y
  div := fun x y => x / y
  dot := intDot
  sprintf16x := intSprintf
  newSource := fun seed => seed.toNat
  normFloat64 := fun r => ((r : Int) - 2, r + 1)
  float64 := fun r => ((r : Int) % 4, r + 1)
  maxSlices := 2 ^ 48 / 24
  maxFloats := 2 ^ 48 / 8

/-! ## Specification-side definitions -/

/-- The list with every occurrence of an element after its first removed. -/
def keepFirst : List Key → List Key
  | [] => []
  | x :: xs => x :: (keepFirst xs).filter (fun k => decide (k ≠ x))

/-- The concatenation of the matching buckets in table order: for each table
with a fingerprint, the bucket stored under that fingerprint (nothing when the
table has no such bucket), each bucket in its stored order. -/
def matchingBuckets : List Key → List Table → List Key
  | hv :: hvs, table :: tables => (table hv).getD [] ++ matchingBuckets hvs tables
  | _, _ => []

/-- Appending to `out` the elements of `cs` that are not yet in it, in order. -/
def addNew : List Key → List Key → List Key
  | out, [] => out
  | out, x :: cs => if x ∈ out then addNew out cs else addNew (out ++ [x]) cs

/-- The map `seens` holds exactly the keys sent so far. -/
def SeenInv {env : Env} (st : QueryState env) : Prop :=
  ∀ k, (st.seens k).isSome = true ↔ k ∈ st.out

/-- The point can be hashed by the index: the number of tables is not
negative and, for every table `i < l` and function `j < m`, the parameters
`a[i][j]` and `b[i][j]` exist and `dot` returns on the point and `a[i][j]`
(for a dot product that needs equal lengths: the point has the dimension of
the projection vectors). -/
def Hashable (env : Env) (lsh : Index env) (point : Point env) : Prop :=
  0 ≤ lsh.l ∧ ∀ i, i < lsh.l.toNat → ∀ j, j < lsh.m.toNat →
    ∃ (ai : List (Point env)) (aij : Point env) (d : env.F) (bi : List env.F) (bij : env.F),
      lsh.a[i]? = some ai ∧ ai[j]? = some aij ∧ env.dot point aij = .ok d ∧
        lsh.b[i]? = some bi ∧ bi[j]? = some bij

/-- Calling `Insert(key, point)` on the same index `k` times in a row; a call
that panics ends the sequence. -/
def insertTimes (env : Env) (key : Key) (point : Point env) :
    Nat → Index env → Index env × Option Panic
  | 0, lsh => (lsh, none)
  | k + 1, lsh =>
    match Insert env lsh key point with
    | (lsh1, none) => insertTimes env key point k lsh1
    | (lsh1, some e) => (lsh1, some e)

/-! ## Concrete indexes over `intEnv` -/

/-- Two tables, one hash function each, both tables empty. The point `[3, 4]`
has the fingerprints `"1;"` and `"2;"`. -/
def demoIndex : Index intEnv where
  dim := 2
  l := 2
  m := 1
  w := (2 : Int)
  a := [[[1, 0]], [[0, 1]]]
  b := [[0], [1]]
  tables := [GoMap.empty, GoMap.empty]

/-- The index `demoIndex` with one bucket in each table; `"x"` and `"y"` are
in both buckets and `"x"` is twice in the first. -/
def demoFull : Index intEnv :=
  { demoIndex with
    tables := [GoMap.set GoMap.empty "1;" ["x", "y", "x"],
               GoMap.set GoMap.empty "2;" ["y", "x", "z"]] }

/-- An index with `dim = 2`, one table and no hash function (`m = 0`): every
point has the fingerprint `""` and `dot` is never called. -/
def demoNoFn : Index intEnv where
  dim := 2
  l := 1
  m := 0
  w := (2 : Int)
  a := [[]]
  b := [[]]
  tables := [GoMap.empty]

/-! ## An environment with exact arithmetic

`float64` is replaced by fractions with exact arithmetic. IEEE 754 addition,
multiplication and division return the exact result whenever that result is
itself a `float64`, so this environment computes what `float64` arithmetic
computes on every input whose intermediate results are all `float64` values
(for instance small integers divided by a power of two). -/

/-- A fraction `num / den` in lowest terms with `den > 0`; `den = 0` stands
for a result that is not a finite number. -/
structure Frac where
  num : Int
  den : Nat
  deriving DecidableEq, Repr

namespace Frac

/-- The fraction `n / d` in lowest terms. -/
def reduce (n : Int) (d : Nat) : Frac :=
  if d = 0 then ⟨0, 0⟩ else ⟨n / (Nat.gcd n.natAbs d : Int), d / Nat.gcd n.natAbs d⟩

/-- The integer `n` as a fraction. -/
def ofInt (n : Int) : Frac := ⟨n, 1⟩

/-- Exact sum. -/
def add (x y : Frac) : Frac := reduce (x.num * y.den + y.num * x.den) (x.den * y.den)

/-- Exact product. -/
def mul (x y : Frac) : Frac := reduce (x.num * y.num) (x.den * y.den)

/-- Exact quotient; a division by zero is not a finite number. -/
def div (x y : Frac) : Frac :=
  if y.num < 0 then reduce (-(x.num * y.den)) (x.den * y.num.natAbs)
  else reduce (x.num * y.den) (x.den * y.num.natAbs)

/-- The function `math.Floor` on a finite fraction. -/
def floor (x : Frac) : Int := Int.fdiv x.num x.den

/-- Position of the highest set bit of `n` (0 for `n < 2`); the first
argument bounds the number of halvings. -/
def log2 : Nat → Nat → Nat
  | 0, _ => 0
  | fuel + 1, n => if n < 2 then 0 else log2 fuel (n / 2) + 1

/-- The hexadecimal digit of `n < 16`, lower case. -/
def hexDigit (n : Nat) : Char :=
  if n < 10 then Char.ofNat (48 + n) else Char.ofNat (87 + n)

/-- The `k` lowest hexadecimal digits of `n`, most significant first. -/
def hexDigits : Nat → Nat → List Char
  | 0, _ => []
  | k + 1, n => hexDigit (n / 16 ^ k % 16) :: hexDigits k n

/-- The decimal digits of an exponent, at least two of them. -/
def expDigits (e : Nat) : List Char :=
  if e < 10 then ['0', Char.ofNat (48 + e)] else (toString e).toList

/-- The call `fmt.Sprintf("%.16x", x)` for a `float64` `x`, as Go 1.13 and
later format it (`strconv`, format `x` with precision 16): an optional `-`,
then `0x1.`, the 16 hexadecimal digits of the fraction of the mantissa, `p`,
the sign of the binary exponent and its decimal digits; zero is
`0x0.0000000000000000p+00`. The fraction `x` is taken to be a `float64` value:
its denominator is a power of two. -/
def sprintf16x (x : Frac) : String :=
  if x.den = 0 then "NaN"
  else if x.num = 0 then "0x0.0000000000000000p+00"
  else
    let n := x.num.natAbs
    let top := log2 n n
    let e : Int := (top : Int) - (log2 x.den x.den : Int)
    let frac := (n - 2 ^ top) * 16 ^ 16 / 2 ^ top
    String.mk ((if x.num < 0 then ['-'] else []) ++ ['0', 'x', '1', '.'] ++
      hexDigits 16 frac ++ ['p', if e < 0 then '-' else '+'] ++ expDigits e.natAbs)

/-- Sum of the products of the coordinates, accumulated from zero in the
order of the coordinates; a coordinate missing from the second point is an
index out of range. -/
def dotFrom : Frac → List Frac → List Frac → Except Panic Frac
  | s, [], _ => .ok s
  | _, _ :: _, [] => .error .indexOutOfRange
  | s, x :: xs, y :: ys => dotFrom (add s (mul x y)) xs ys

end Frac

/-- The environment with exact arithmetic on fractions and the hexadecimal
floating-point rendering of Go. -/
@[reducible] def fracEnv : Env where
  F := Frac
  R := Nat
  add := Frac.add
  mul := Frac.mul
  div := Frac.div
  dot := Frac.dotFrom (Frac.ofInt 0)
  sprintf16x := Frac.sprintf16x
  newSource := fun seed => seed.toNat
  normFloat64 := fun r => (Frac.reduce ((r : Int) - 2) 4, r + 1)
  float64 := fun r => (Frac.reduce ((r : Int) % 4) 4, r + 1)
  maxSlices := 2 ^ 48 / 24
  maxFloats := 2 ^ 48 / 8

/-- An index over `fracEnv` with `dim = 1`, one table, one hash function,
bucket width `w = 4`, projection vector `(1)` and offset `0`: the quantized
value of the point `(x)` is `x / 4`. -/
def bandIndex : Index fracEnv where
  dim := 1
  l := 1
  m := 1
  w := Frac.ofInt 4
  a := [[[Frac.ofInt 1]]]
  b := [[Frac.ofInt 0]]
  tables := [GoMap.empty]

/-! ## Sequences of calls -/

/-- A call on an index: `Insert(key, point)` or `Query(q)`. -/
inductive Op (env : Env) where
  | insert (key : Key) (point : Point env)
  | query (q : Point env)

/-- The receiver after one call, whether the call returned or panicked. -/
def applyOp (env : Env) (lsh : Index env) : Op env → Index env
  | .insert key point => (Insert env lsh key point).1
  | .query q => (Query env lsh q).1.lsh

/-- The receiver after a sequence of calls. -/
def runOps (env : Env) : List (Op env) → Index env → Index env
  | [], lsh => lsh
  | op :: ops, lsh => runOps env ops (applyOp env lsh op)

/-- The receiver after a sequence of calls of `Insert`. -/
def insertAll (env : Env) : List (Key × Point env) → Index env → Index env
  | [], lsh => lsh
  | (key, point) :: rest, lsh => insertAll env rest (Insert env lsh key point).1

/-- The parameter arrays have the shape given by `dim`, `l` and `m`, and there
are at most `l` tables. -/
def WellShaped {env : Env} (lsh : Index env) : Prop :=
  0 ≤ lsh.l ∧ lsh.a.length = lsh.l.toNat ∧ lsh.b.length = lsh.l.toNat ∧
    (∀ row ∈ lsh.a, row.length = lsh.m.toNat ∧ ∀ v ∈ row, v.length = lsh.dim.toNat) ∧
    (∀ row ∈ lsh.b, row.length = lsh.m.toNat) ∧ lsh.tables.length ≤ lsh.l.toNat

/-! ## `NewLshSettings` among the random sources of the program

The generator of `NewLshSettings` is an object made by `rand.New` and changed
by every draw. Here the generators live in a store, next to the source that
the package-level functions of `math/rand` share, and `NewLshSettings` is a
step on that store. -/

/-- The random sources of the running program: the source shared by the
package-level functions of `math/rand`, and the generators made by `rand.New`,
numbered in the order of their creation; `next` is the number that the next
generator gets. -/
structure RandWorld (env : Env) where
  shared : env.R
  gens : Nat → env.R
  next : Nat

namespace RandWorld

/-- The world in which generator `g` has the state `r`. -/
def setGen {env : Env} (wd : RandWorld env) (g : Nat) (r : env.R) : RandWorld env :=
  { wd with gens := fun k => if k = g then r else wd.gens k }

/-- The call `rand.New(rand.NewSource(seed))`: the number of the generator it
makes, and the world that holds it. -/
def newRand {env : Env} (wd : RandWorld env) (seed : Int) : Nat × RandWorld env :=
  (wd.next, { wd.setGen wd.next (env.newSource seed) with next := wd.next + 1 })

/-- The call `random.NormFloat64()` on generator `g`: the sample, and the
world in which that generator has advanced. -/
def normFloat64 {env : Env} (wd : RandWorld env) (g : Nat) : env.F × RandWorld env :=
  ((env.normFloat64 (wd.gens g)).1, wd.setGen g (env.normFloat64 (wd.gens g)).2)

/-- The call `random.Float64()` on generator `g`: the sample, and the world in
which that generator has advanced. -/
def float64 {env : Env} (wd : RandWorld env) (g : Nat) : env.F × RandWorld env :=
  ((env.float64 (wd.gens g)).1, wd.setGen g (env.float64 (wd.gens g)).2)

end RandWorld

/-- The loop `for d := 0; d < dim; d++ { a[i][j][d] = random.NormFloat64() }`
with `random` the generator `g`. -/
def drawPointIn (env : Env) (g : Nat) : Nat → RandWorld env → Point env × RandWorld env
  | 0, wd => ([], wd)
  | n + 1, wd =>
    let (x, wd1) := wd.normFloat64 g
    let (xs, wd2) := drawPointIn env g n wd1
    (x :: xs, wd2)

/-- The body of `for j := range a[i]` with `random` the generator `g`, run for
the `n` remaining values of `j`; the world is returned also when `make`
panics. -/
def drawRowIn (env : Env) (g : Nat) (dim : Int) (w : env.F) :
    Nat → RandWorld env → Except Panic (List (Point env) × List env.F) × RandWorld env
  | 0, wd => (.ok ([], []), wd)
  | n + 1, wd =>
    if makeRejects env.maxFloats dim then (.error .makesliceLenOutOfRange, wd)
    else
      let (p, wd1) := drawPointIn env g dim.toNat wd
      let (u, wd2) := wd1.float64 g
      match drawRowIn env g dim w n wd2 with
      | (.error e, wd3) => (.error e, wd3)
      | (.ok (ps, bs), wd3) => (.ok (p :: ps, env.mul u w :: bs), wd3)

/-- The body of `for i := range a` with `random` the generator `g`, run for
the `n` remaining values of `i`. -/
def drawRowsIn (env : Env) (g : Nat) (dim m : Int) (w : env.F) :
    Nat → RandWorld env →
      Except Panic (List (List (Point env)) × List (List env.F)) × RandWorld env
  | 0, wd => (.ok ([], []), wd)
  | n + 1, wd =>
    if makeRejects env.maxSlices m ∨ makeRejects env.maxFloats m then
      (.error .makesliceLenOutOfRange, wd)
    else
      match drawRowIn env g dim w m.toNat wd with
      | (.error e, wd1) => (.error e, wd1)
      | (.ok (ps, bs), wd1) =>
        match drawRowsIn env g dim m w n wd1 with
        | (.error e, wd2) => (.error e, wd2)
        | (.ok (a, b), wd2) => (.ok (ps :: a, bs :: b), wd2)

/-- The function `NewLshSettings` as a step on the random sources of the
program: the two `make`, then `random := rand.New(rand.NewSource(rand_seed))`,
the loops drawing from `random`, and the composite literal. Returns the result
and the world after the call. -/
def NewLshSettingsIn (env : Env) (wd : RandWorld env) (dim l m : Int) (w : env.F) :
    Except Panic (Index env) × RandWorld env :=
  if makeRejects env.maxSlices l then (.error .makesliceLenOutOfRange, wd)
  else
    let (random, wd1) := wd.newRand rand_seed
    match drawRowsIn env random dim m w l.toNat wd1 with
    | (.error e, wd2) => (.error e, wd2)
    | (.ok (a, b), wd2) =>
      (.ok { dim := dim, l := l, m := m, a := a, b := b, w := w, tables := [] }, wd2)

/-- A world over `intEnv` in which two generators have been made. -/
def demoWorld : RandWorld intEnv where
  shared := 5
  gens := fun g => 10 + g
  next := 2

/-! ## Lemmas on the specification-side definitions -/

theorem addNew_append (cs ds out : List Key) :
    addNew out (cs ++ ds) = addNew (addNew out cs) ds := by
  induction cs generalizing out with
  | nil => rfl
  | cons x cs ih =>
    simp only [List.cons_append, addNew]
    split <;> exact ih _

theorem addNew_eq (cs out : List Key) :
    addNew out cs = out ++ (keepFirst cs).filter (fun k => decide (k ∉ out)) := by
  induction cs generalizing out with
  | nil => simp [addNew, keepFirst]
  | cons x cs ih =>
    simp only [addNew, keepFirst]
    by_cases hx : x ∈ out
    · rw [if_pos hx, ih, List.filter_cons_of_neg (by simpa using hx), List.filter_filter]
      congr 1
      apply List.filter_congr
      intro k _
      by_cases hk : k ∈ out
      · simp [hk]
      · have : k ≠ x := fun h => hk (h ▸ hx)
        simp [hk, this]
    · rw [if_neg hx, ih, List.filter_cons_of_pos (by simpa using hx), List.filter_filter,
        List.append_assoc]
      congr 1
      simp only [List.singleton_append]
      congr 1
      apply List.filter_congr
      intro k _
      by_cases hk : k ∈ out <;> by_cases hkx : k = x <;> simp [hk, hkx]

theorem addNew_nil (cs : List Key) : addNew [] cs = keepFirst cs := by
  rw [addNew_eq]; simp

theorem mem_keepFirst (k : Key) (xs : List Key) : k ∈ keepFirst xs ↔ k ∈ xs := by
  induction xs with
  | nil => simp [keepFirst]
  | cons x xs ih =>
    simp only [keepFirst, List.mem_cons, List.mem_filter, ih]
    by_cases h : k = x <;> simp [h]

theorem nodup_keepFirst (xs : List Key) : (keepFirst xs).Nodup := by
  induction xs with
  | nil => simp [keepFirst]
  | cons x xs ih =>
    simp only [keepFirst, List.nodup_cons, List.mem_filter]
    exact ⟨by simp, ih.filter _⟩

theorem nodup_addNew (cs out : List Key) (h : out.Nodup) : (addNew out cs).Nodup := by
  induction cs generalizing out with
  | nil => exact h
  | cons x cs ih =>
    simp only [addNew]
    split
    · exact ih _ h
    · next hx =>
      apply ih
      rw [List.nodup_append]
      exact ⟨h, by simp, by simpa using hx⟩

theorem mem_matchingBuckets (key : Key) (hvs : List Key) (tables : List Table) :
    key ∈ matchingBuckets hvs tables ↔
      ∃ (i : Nat) (hv : Key) (table : Table) (bucket : List Key),
        hvs[i]? = some hv ∧ tables[i]? = some table ∧ table hv = some bucket ∧ key ∈ bucket := by
  induction hvs generalizing tables with
  | nil => simp [matchingBuckets]
  | cons hv hvs ih =>
    cases tables with
    | nil => simp [matchingBuckets]
    | cons table tables =>
      simp only [matchingBuckets, List.mem_append, ih]
      constructor
      · rintro (h | ⟨i, hv1, t1, bk, h1, h2, h3, h4⟩)
        · cases hb : table hv with
          | none => simp [hb] at h
          | some bucket =>
            exact ⟨0, hv, table, bucket, by simp, by simp, hb, by simpa [hb] using h⟩
        · exact ⟨i + 1, hv1, t1, bk, by simpa using h1, by simpa using h2, h3, h4⟩
      · rintro ⟨i, hv1, t1, bk, h1, h2, h3, h4⟩
        cases i with
        | zero =>
          simp only [List.getElem?_cons_zero, Option.some.injEq] at h1 h2
          subst h1 h2
          left; simp [h3, h4]
        | succ i =>
          right
          exact ⟨i, hv1, t1, bk, by simpa using h1, by simpa using h2, h3, h4⟩

/-! ## Lemmas on `Query` -/

theorem queryCandidates_lsh {env : Env} (cs : List Key) (st : QueryState env) :
    (queryCandidates cs st).lsh = st.lsh := by
  induction cs generalizing st with
  | nil => rfl
  | cons x cs ih =>
    simp only [queryCandidates]
    split
    · exact ih _
    · rw [ih]

theorem queryCandidates_out {env : Env} (cs : List Key) (st : QueryState env)
    (hinv : SeenInv st) :
    (queryCandidates cs st).out = addNew st.out cs ∧ SeenInv (queryCandidates cs st) := by
  induction cs generalizing st with
  | nil => exact ⟨rfl, hinv⟩
  | cons x cs ih =>
    simp only [queryCandidates, addNew]
    cases hs : st.seens x with
    | some v =>
      have hx : x ∈ st.out := (hinv x).1 (by simp [hs])
      simp only [if_pos hx]
      exact ih st hinv
    | none =>
      have hx : x ∉ st.out := fun h => by
        have := (hinv x).2 h
        simp [hs] at this
      simp only [if_neg hx]
      apply ih
      intro k
      simp only [GoMap.set, List.mem_append, List.mem_singleton]
      by_cases hk : k = x
      · simp [hk]
      · simp only [if_neg hk, hk, or_false]
        exact hinv k

theorem queryLoop_lsh {env : Env} (hvs : List Key) (i : Nat) (tables : List Table)
    (st : QueryState env) : (queryLoop hvs i tables st).1.lsh = st.lsh := by
  induction tables generalizing i st with
  | nil => rfl
  | cons table tables ih =>
    simp only [queryLoop]
    cases hvs[i]? with
    | none => rfl
    | some hv =>
      simp only
      cases table hv with
      | none => exact ih _ _
      | some cands => simp only; rw [ih, queryCandidates_lsh]

theorem queryLoop_out {env : Env} (hvs : List Key) (i : Nat) (tables : List Table)
    (st : QueryState env) (hinv : SeenInv st) :
    (queryLoop hvs i tables st).1.out = addNew st.out (matchingBuckets (hvs.drop i) tables) := by
  induction tables generalizing i st with
  | nil => cases hd : hvs.drop i <;> simp [queryLoop, matchingBuckets, addNew]
  | cons table tables ih =>
    simp only [queryLoop]
    cases hi : hvs[i]? with
    | none =>
      have : hvs.drop i = [] := by
        rw [List.drop_eq_nil_iff]
        exact List.getElem?_eq_none_iff.1 hi
      simp [this, matchingBuckets, addNew]
    | some hv =>
      have hd : hvs.drop i = hv :: hvs.drop (i + 1) := by
        obtain ⟨hlt, rfl⟩ := List.getElem?_eq_some_iff.1 hi
        exact List.drop_eq_getElem_cons hlt
      simp only [hd, matchingBuckets]
      cases hb : table hv with
      | none => simpa using ih (i + 1) st hinv
      | some cands =>
        simp only [Option.getD_some]
        have hq := queryCandidates_out cands st hinv
        rw [ih (i + 1) _ hq.2, hq.1, addNew_append]

theorem queryLoop_panic {env : Env} (hvs : List Key) (i : Nat) (tables : List Table)
    (st : QueryState env) (hlen : tables.length + i ≤ hvs.length) :
    (queryLoop hvs i tables st).2 = none := by
  induction tables generalizing i st with
  | nil => rfl
  | cons table tables ih =>
    simp only [queryLoop]
    have hlt : i < hvs.length := by simp only [List.length_cons] at hlen; omega
    rw [List.getElem?_eq_getElem hlt]
    simp only
    have hlen1 : tables.length + (i + 1) ≤ hvs.length := by
      simp only [List.length_cons] at hlen; omega
    cases table (hvs[i]) with
    | none => exact ih _ _ hlen1
    | some cands => exact ih _ _ hlen1

theorem seenInv_init {env : Env} (lsh : Index env) :
    SeenInv ({ lsh := lsh, seens := GoMap.empty, out := [] } : QueryState env) := by
  intro k; simp [GoMap.empty]

theorem Query_out_of_hash {env : Env} (lsh : Index env) (q : Point env) (hvs : List Key)
    (hh : Hash env lsh q = .ok hvs) :
    (Query env lsh q).1.out = keepFirst (matchingBuckets hvs lsh.tables) := by
  simp only [Query, hh]
  rw [queryLoop_out _ _ _ _ (seenInv_init lsh)]
  simp [addNew_nil]

theorem Query_out_of_hash_error {env : Env} (lsh : Index env) (q : Point env) (e : Panic)
    (hh : Hash env lsh q = .error e) :
    (Query env lsh q).1.out = [] ∧ (Query env lsh q).2 = some e := by
  simp [Query, hh]

/-! ## Lemmas on `Hash` -/

theorem hashValue_congr {env : Env} (lsh1 lsh2 : Index env) (point : Point env) (i j : Nat)
    (ha : lsh1.a = lsh2.a) (hb : lsh1.b = lsh2.b) (hw : lsh1.w = lsh2.w) :
    hashValue env lsh1 point i j = hashValue env lsh2 point i j := by
  simp only [hashValue, ha, hb, hw]

theorem hashLoop_congr {env : Env} (lsh1 lsh2 : Index env) (point : Point env) (i n j : Nat)
    (s : String) (ha : lsh1.a = lsh2.a) (hb : lsh1.b = lsh2.b) (hw : lsh1.w = lsh2.w) :
    hashLoop env lsh1 point i n j s = hashLoop env lsh2 point i n j s := by
  induction n generalizing j s with
  | zero => rfl
  | succ n ih =>
    simp only [hashLoop, hashValue_congr lsh1 lsh2 point i j ha hb hw]
    cases hashValue env lsh2 point i j with
    | error e => rfl
    | ok hv => exact ih _ _

theorem hashRows_congr {env : Env} (lsh1 lsh2 : Index env) (point : Point env) (n i : Nat)
    (hm : lsh1.m = lsh2.m) (ha : lsh1.a = lsh2.a) (hb : lsh1.b = lsh2.b)
    (hw : lsh1.w = lsh2.w) :
    hashRows env lsh1 point n i = hashRows env lsh2 point n i := by
  induction n generalizing i with
  | zero => rfl
  | succ n ih =>
    simp only [hashRows, hm, hashLoop_congr lsh1 lsh2 point i _ 0 "" ha hb hw, ih]

theorem Hash_congr {env : Env} (lsh1 lsh2 : Index env) (point : Point env)
    (hl : lsh1.l = lsh2.l) (hm : lsh1.m = lsh2.m) (ha : lsh1.a = lsh2.a)
    (hb : lsh1.b = lsh2.b) (hw : lsh1.w = lsh2.w) :
    Hash env lsh1 point = Hash env lsh2 point := by
  simp only [Hash, hl, hashRows_congr lsh1 lsh2 point _ 0 hm ha hb hw]

theorem hashRows_length {env : Env} (lsh : Index env) (point : Point env) (n i : Nat)
    (hvs : List Key) (h : hashRows env lsh point n i = .ok hvs) : hvs.length = n := by
  induction n generalizing i hvs with
  | zero => simp only [hashRows, Except.ok.injEq] at h; subst h; rfl
  | succ n ih =>
    simp only [hashRows] at h
    split at h
    · exact absurd h (by simp)
    · split at h
      · exact absurd h (by simp)
      · next rest hr =>
        simp only [Except.ok.injEq] at h
        subst h
        simp [ih _ _ hr]

theorem Hash_length {env : Env} (lsh : Index env) (point : Point env) (hvs : List Key)
    (h : Hash env lsh point = .ok hvs) : hvs.length = lsh.l.toNat := by
  simp only [Hash] at h
  split at h
  · exact absurd h (by simp)
  · exact hashRows_length _ _ _ _ _ h

theorem hashLoop_returns {env : Env} (lsh : Index env) (point : Point env) (i n j : Nat)
    (s : String)
    (h : ∀ j1, j ≤ j1 → j1 < j + n → ∃ hv, hashValue env lsh point i j1 = .ok hv) :
    ∃ key, hashLoop env lsh point i n j s = .ok key := by
  induction n generalizing j s with
  | zero => exact ⟨s, rfl⟩
  | succ n ih =>
    obtain ⟨hv, hhv⟩ := h j (Nat.le_refl j) (by omega)
    simp only [hashLoop, hhv]
    exact ih _ _ (fun j1 h1 h2 => h j1 (by omega) (by omega))

theorem hashRows_returns {env : Env} (lsh : Index env) (point : Point env) (n i : Nat)
    (h : ∀ i1, i ≤ i1 → i1 < i + n → ∀ j, j < lsh.m.toNat →
      ∃ hv, hashValue env lsh point i1 j = .ok hv) :
    ∃ hvs, hashRows env lsh point n i = .ok hvs := by
  induction n generalizing i with
  | zero => exact ⟨[], rfl⟩
  | succ n ih =>
    obtain ⟨s, hs⟩ := hashLoop_returns lsh point i lsh.m.toNat 0 ""
      (fun j1 _ h2 => h i (Nat.le_refl i) (by omega) j1 (by omega))
    obtain ⟨rest, hr⟩ := ih (i + 1) (fun i1 h1 h2 => h i1 (by omega) (by omega))
    exact ⟨s :: rest, by simp only [hashRows, hs, hr]⟩

theorem Hash_returns {env : Env} (lsh : Index env) (point : Point env)
    (h : Hashable env lsh point) :
    ∃ hvs, Hash env lsh point = .ok hvs ∧ hvs.length = lsh.l.toNat := by
  obtain ⟨hl, hall⟩ := h
  have hr : ∃ hvs, hashRows env lsh point lsh.l.toNat 0 = .ok hvs := by
    apply hashRows_returns
    intro i _ hi j hj
    obtain ⟨ai, aij, d, bi, bij, h1, h2, h3, h4, h5⟩ := hall i (by omega) j hj
    exact ⟨env.div (env.add d bij) lsh.w, by simp only [hashValue, index, h1, h2, h3, h4, h5]⟩
  obtain ⟨hvs, hhvs⟩ := hr
  have hH : Hash env lsh point = .ok hvs := by
    simp only [Hash, if_neg (not_lt.2 hl), hhvs]
  exact ⟨hvs, hH, Hash_length _ _ _ hH⟩

/-! ## Lemmas on `Insert` -/

theorem insertTable_same (table : Table) (hv key : Key) :
    insertTable table hv key hv = some ((table hv).getD [] ++ [key]) := by
  cases h : table hv <;> simp [insertTable, GoMap.set, h]

theorem insertTable_other (table : Table) (hv key k : Key) (hk : k ≠ hv) :
    insertTable table hv key k = table k := by
  cases h : table hv <;> simp [insertTable, GoMap.set, h, hk]

theorem insertLoop_length (hvs : List Key) (key : Key) (i : Nat) (tables : List Table) :
    (insertLoop hvs key i tables).1.length = tables.length := by
  induction tables generalizing i with
  | nil => rfl
  | cons table tables ih =>
    simp only [insertLoop]
    cases hvs[i]? with
    | none => rfl
    | some hv => simp [ih]

theorem insertLoop_panic (hvs : List Key) (key : Key) (i : Nat) (tables : List Table)
    (hlen : tables.length + i ≤ hvs.length) : (insertLoop hvs key i tables).2 = none := by
  induction tables generalizing i with
  | nil => rfl
  | cons table tables ih =>
    simp only [insertLoop]
    have hlt : i < hvs.length := by simp only [List.length_cons] at hlen; omega
    rw [List.getElem?_eq_getElem hlt]
    simp only
    exact ih (i + 1) (by simp only [List.length_cons] at hlen; omega)

theorem insertLoop_visited (hvs : List Key) (key : Key) (i : Nat) (tables : List Table)
    (n : Nat) (table : Table) (hv : Key) (ht : tables[n]? = some table)
    (hhv : hvs[i + n]? = some hv) :
    (insertLoop hvs key i tables).1[n]? = some (insertTable table hv key) := by
  induction tables generalizing i n with
  | nil => simp at ht
  | cons t tables ih =>
    simp only [insertLoop]
    have hi : ∃ hv0, hvs[i]? = some hv0 := by
      have h1 : i + n < hvs.length := (List.getElem?_eq_some_iff.1 hhv).1
      exact ⟨hvs[i], List.getElem?_eq_getElem (by omega)⟩
    obtain ⟨hv0, hhv0⟩ := hi
    rw [hhv0]
    cases n with
    | zero =>
      simp only [List.getElem?_cons_zero, Option.some.injEq] at ht
      simp only [Nat.add_zero] at hhv
      rw [hhv0] at hhv
      simp only [Option.some.injEq] at hhv
      subst ht hhv
      simp
    | succ n =>
      simp only [List.getElem?_cons_succ] at ht ⊢
      exact ih (i + 1) n ht (by rw [← hhv]; congr 1; omega)

theorem insertLoop_unvisited (hvs : List Key) (key : Key) (i : Nat) (tables : List Table)
    (n : Nat) (table : Table) (ht : tables[n]? = some table) (hhv : hvs[i + n]? = none) :
    (insertLoop hvs key i tables).1[n]? = some table := by
  induction tables generalizing i n with
  | nil => simp at ht
  | cons t tables ih =>
    simp only [insertLoop]
    cases hi : hvs[i]? with
    | none => exact ht
    | some hv0 =>
      cases n with
      | zero => simp [hi] at hhv
      | succ n =>
        simp only [List.getElem?_cons_succ] at ht ⊢
        exact ih (i + 1) n ht (by rw [← hhv]; congr 1; omega)

theorem Insert_of_hash {env : Env} (lsh : Index env) (key : Key) (p : Point env)
    (hvs : List Key) (hh : Hash env lsh p = .ok hvs) :
    Insert env lsh key p =
      ({ lsh with tables := (insertLoop hvs key 0 lsh.tables).1 },
        (insertLoop hvs key 0 lsh.tables).2) := by
  simp only [Insert, hh]

theorem Insert_of_hash_error {env : Env} (lsh : Index env) (key : Key) (p : Point env)
    (e : Panic) (hh : Hash env lsh p = .error e) : Insert env lsh key p = (lsh, some e) := by
  simp only [Insert, hh]

theorem Insert_tables_length {env : Env} (lsh : Index env) (key : Key) (p : Point env) :
    (Insert env lsh key p).1.tables.length = lsh.tables.length := by
  cases hh : Hash env lsh p with
  | error e => rw [Insert_of_hash_error lsh key p e hh]
  | ok hvs => rw [Insert_of_hash lsh key p hvs hh]; exact insertLoop_length _ _ _ _

theorem Insert_step {env : Env} (lsh : Index env) (key : Key) (p : Point env)
    (hp : Hashable env lsh p) (ht : lsh.tables.length = lsh.l.toNat) :
    ∃ hvs, Hash env lsh p = .ok hvs ∧ hvs.length = lsh.l.toNat ∧
      Insert env lsh key p = ({ lsh with tables := (insertLoop hvs key 0 lsh.tables).1 }, none) ∧
      ∀ i, i < lsh.l.toNat → ∃ (hv : Key) (table : Table),
        hvs[i]? = some hv ∧ lsh.tables[i]? = some table ∧
          (insertLoop hvs key 0 lsh.tables).1[i]? = some (insertTable table hv key) := by
  obtain ⟨hvs, hh, hl⟩ := Hash_returns lsh p hp
  refine ⟨hvs, hh, hl, ?_, ?_⟩
  · rw [Insert_of_hash lsh key p hvs hh, insertLoop_panic hvs key 0 lsh.tables (by omega)]
  · intro i hi
    have h1 : hvs[i]? = some hvs[i] := List.getElem?_eq_getElem (by omega)
    have h2 : lsh.tables[i]? = some lsh.tables[i] := List.getElem?_eq_getElem (by omega)
    exact ⟨hvs[i], lsh.tables[i], h1, h2,
      insertLoop_visited hvs key 0 lsh.tables i _ _ h2 (by rw [Nat.zero_add]; exact h1)⟩

theorem insertTimes_spec {env : Env} (key : Key) (p : Point env) (k : Nat) (lsh : Index env)
    (hp : Hashable env lsh p) (ht : lsh.tables.length = lsh.l.toNat) :
    (insertTimes env key p k lsh).2 = none ∧
      ∃ hvs, Hash env lsh p = .ok hvs ∧
        ∀ i, i < lsh.l.toNat → ∃ (hv : Key) (table table1 : Table),
          hvs[i]? = some hv ∧ lsh.tables[i]? = some table ∧
            (insertTimes env key p k lsh).1.tables[i]? = some table1 ∧
              (table1 hv).getD [] = (table hv).getD [] ++ List.replicate k key := by
  induction k generalizing lsh with
  | zero =>
    obtain ⟨hvs, hh, hl⟩ := Hash_returns lsh p hp
    refine ⟨rfl, hvs, hh, ?_⟩
    intro i hi
    have h1 : hvs[i]? = some hvs[i] := List.getElem?_eq_getElem (by omega)
    have h2 : lsh.tables[i]? = some lsh.tables[i] := List.getElem?_eq_getElem (by omega)
    exact ⟨hvs[i], lsh.tables[i], lsh.tables[i], h1, h2, h2, by simp [insertTimes]⟩
  | succ k ih =>
    obtain ⟨hvs, hh, hl, hins, hall⟩ := Insert_step lsh key p hp ht
    have hp1 : Hashable env { lsh with tables := (insertLoop hvs key 0 lsh.tables).1 } p := hp
    have ht1 : ({ lsh with tables := (insertLoop hvs key 0 lsh.tables).1 } : Index env).tables.length
        = lsh.l.toNat := by
      show (insertLoop hvs key 0 lsh.tables).1.length = lsh.l.toNat
      rw [insertLoop_length, ht]
    obtain ⟨hpanic, hvs1, hh1, hall1⟩ := ih _ hp1 ht1
    have hsame : hvs1 = hvs := by
      have hc : Hash env { lsh with tables := (insertLoop hvs key 0 lsh.tables).1 } p
          = Hash env lsh p := Hash_congr _ _ _ rfl rfl rfl rfl rfl
      rw [hc, hh] at hh1
      exact (Except.ok.inj hh1).symm
    subst hsame
    have hunf : insertTimes env key p (k + 1) lsh =
        insertTimes env key p k { lsh with tables := (insertLoop hvs1 key 0 lsh.tables).1 } := by
      simp only [insertTimes, hins]
    rw [hunf]
    refine ⟨hpanic, hvs1, hh, ?_⟩
    intro i hi
    obtain ⟨hv, table, h1, h2, h3⟩ := hall i hi
    obtain ⟨hv1, table0, table1, g1, g2, g3, g4⟩ := hall1 i hi
    have e1 : hv1 = hv := by rw [h1] at g1; exact (Option.some.inj g1).symm
    have e2 : table0 = insertTable table hv key := by
      have g2b : (insertLoop hvs1 key 0 lsh.tables).1[i]? = some table0 := g2
      rw [h3] at g2b
      exact (Option.some.inj g2b).symm
    subst e1 e2
    refine ⟨hv1, table, table1, h1, h2, g3, ?_⟩
    rw [g4, insertTable_same, Option.getD_some, List.append_assoc]
    rfl

/-! ## Lemmas on `NewLshSettings` -/

theorem drawRow_returns (env : Env) (dim : Int) (w : env.F)
    (hdim : ¬ makeRejects env.maxFloats dim) (n : Nat) (r : env.R) :
    ∃ res, drawRow env dim w n r = .ok res := by
  induction n generalizing r with
  | zero => exact ⟨_, rfl⟩
  | succ n ih =>
    simp only [drawRow, if_neg hdim]
    obtain ⟨⟨⟨ps, bs⟩, r3⟩, hres⟩ :=
      ih (env.float64 (drawPoint env dim.toNat r).2).2
    rw [hres]
    exact ⟨_, rfl⟩

theorem drawRow_error (env : Env) (dim : Int) (w : env.F) (n : Nat) (r : env.R) (e : Panic)
    (h : drawRow env dim w n r = .error e) :
    e = .makesliceLenOutOfRange ∧ makeRejects env.maxFloats dim ∧ 0 < n := by
  induction n generalizing r e with
  | zero => simp [drawRow] at h
  | succ n ih =>
    simp only [drawRow] at h
    split at h
    · next hd => exact ⟨(Except.error.inj h).symm, hd, Nat.succ_pos n⟩
    · split at h
      · next e1 he =>
        have := ih _ _ he
        exact ⟨by rw [← Except.error.inj h]; exact this.1, this.2.1, Nat.succ_pos n⟩
      · exact absurd h (by simp)

theorem drawRows_error (env : Env) (dim m : Int) (w : env.F) (n : Nat) (r : env.R)
    (e : Panic) (h : drawRows env dim m w n r = .error e) :
    e = .makesliceLenOutOfRange ∧ 0 < n ∧
      ((makeRejects env.maxSlices m ∨ makeRejects env.maxFloats m) ∨
        (0 < m ∧ makeRejects env.maxFloats dim)) := by
  induction n generalizing r e with
  | zero => simp [drawRows] at h
  | succ n ih =>
    simp only [drawRows] at h
    split at h
    · next hm => exact ⟨(Except.error.inj h).symm, Nat.succ_pos n, Or.inl hm⟩
    · next hm =>
      split at h
      · next e1 he =>
        obtain ⟨h1, h2, h3⟩ := drawRow_error env dim w _ r e1 he
        refine ⟨by rw [← Except.error.inj h]; exact h1, Nat.succ_pos n, Or.inr ⟨?_, h2⟩⟩
        omega
      · split at h
        · next e2 he2 =>
          obtain ⟨h1, _, h3⟩ := ih _ _ he2
          exact ⟨by rw [← Except.error.inj h]; exact h1, Nat.succ_pos n, h3⟩
        · exact absurd h (by simp)

theorem drawRows_fails (env : Env) (dim m : Int) (w : env.F) (n : Nat) (r : env.R)
    (h : (makeRejects env.maxSlices m ∨ makeRejects env.maxFloats m) ∨
      (0 < m ∧ makeRejects env.maxFloats dim)) :
    drawRows env dim m w (n + 1) r = .error .makesliceLenOutOfRange := by
  by_cases hm : makeRejects env.maxSlices m ∨ makeRejects env.maxFloats m
  · simp only [drawRows, if_pos hm]
  · rcases h with h | ⟨hpos, hd⟩
    · exact absurd h hm
    · obtain ⟨k, hk⟩ : ∃ k, m.toNat = k + 1 := ⟨m.toNat - 1, by omega⟩
      simp only [drawRows, if_neg hm, hk, drawRow, if_pos hd]

theorem drawRows_returns (env : Env) (dim m : Int) (w : env.F) (n : Nat) (r : env.R)
    (h : n = 0 ∨ (¬ (makeRejects env.maxSlices m ∨ makeRejects env.maxFloats m) ∧
      (m = 0 ∨ ¬ makeRejects env.maxFloats dim))) :
    ∃ res, drawRows env dim m w n r = .ok res := by
  cases hres : drawRows env dim m w n r with
  | ok res => exact ⟨res, rfl⟩
  | error e =>
    obtain ⟨_, h2, h3⟩ := drawRows_error env dim m w n r e hres
    rcases h with h | ⟨hm, hd⟩
    · omega
    · rcases h3 with h3 | ⟨hpos, hbad⟩
      · exact absurd h3 hm
      · rcases hd with hd | hd
        · omega
        · exact absurd hbad hd

theorem makeRejects_zero (limit : Nat) : ¬ makeRejects limit 0 := by
  unfold makeRejects
  omega

theorem drawRows_zero_fn (env : Env) (dim : Int) (w : env.F) (n : Nat) (r : env.R) :
    ∃ r1, drawRows env dim 0 w n r =
      .ok ((List.replicate n [], List.replicate n []), r1) := by
  have h0 : ¬ (makeRejects env.maxSlices 0 ∨ makeRejects env.maxFloats 0) :=
    fun h => h.elim (makeRejects_zero _) (makeRejects_zero _)
  induction n generalizing r with
  | zero => exact ⟨r, rfl⟩
  | succ n ih =>
    obtain ⟨r1, h1⟩ := ih r
    refine ⟨r1, ?_⟩
    simp only [drawRows, if_neg h0, Int.toNat_zero, drawRow, h1, List.replicate_succ]

theorem NewLshSettings_fields (env : Env) (dim l m : Int) (w : env.F) (lsh : Index env)
    (h : NewLshSettings env dim l m w = .ok lsh) :
    lsh.dim = dim ∧ lsh.l = l ∧ lsh.m = m ∧ lsh.w = w ∧ lsh.tables = [] := by
  simp only [NewLshSettings] at h
  split at h
  · exact absurd h (by simp)
  · split at h
    · exact absurd h (by simp)
    · have := Except.ok.inj h
      subst this
      exact ⟨rfl, rfl, rfl, rfl, rfl⟩

/-! ## Facts about the concrete indexes -/

theorem demoIndex_hashable (tables : List Table) (p0 p1 : Int) :
    Hashable intEnv { demoIndex with tables := tables } [p0, p1] := by
  refine ⟨show (0 : Int) ≤ 2 by decide, ?_⟩
  intro i hi j hj
  have hi2 : i < 2 := hi
  have hj1 : j < 1 := hj
  have hj0 : j = 0 := by omega
  subst hj0
  interval_cases i
  · exact ⟨[[1, 0]], [1, 0], p0 * 1 + (p1 * 0 + 0), [0], 0, rfl, rfl, rfl, rfl, rfl⟩
  · exact ⟨[[0, 1]], [0, 1], p0 * 0 + (p1 * 1 + 0), [1], 1, rfl, rfl, rfl, rfl, rfl⟩

/-! ## Theorems on `Query` -/

/-- C1: the values `Query` sends on `out` contain no identifier twice, for
every index and probe point (also when the call panics); an identifier that
occurs in the matching buckets, in however many tables and however often in
one bucket, is sent exactly once. -/
theorem Query_no_duplicates (env : Env) (lsh : Index env) (q : Point env) :
    (Query env lsh q).1.out.Nodup ∧
      ∀ hvs, Hash env lsh q = .ok hvs → ∀ key, key ∈ matchingBuckets hvs lsh.tables →
        (Query env lsh q).1.out.count key = 1 := by
  cases hh : Hash env lsh q with
  | error e =>
    refine ⟨?_, fun hvs h => absurd h (by simp)⟩
    rw [(Query_out_of_hash_error lsh q e hh).1]
    exact List.nodup_nil
  | ok hvs0 =>
    have hout := Query_out_of_hash lsh q hvs0 hh
    refine ⟨by rw [hout]; exact nodup_keepFirst _, ?_⟩
    intro hvs h key hkey
    simp only [Except.ok.injEq] at h
    subst h
    rw [hout]
    exact List.count_eq_one_of_mem (nodup_keepFirst _) ((mem_keepFirst _ _).2 hkey)

/-- Witness of C1: `"x"` is in the matching buckets of both tables of
`demoFull`, twice in the first, and is sent once. -/
theorem Query_no_duplicates_witness :
    (Query intEnv demoFull [3, 4]).1.out.count "x" = 1 :=
  (Query_no_duplicates intEnv demoFull [3, 4]).2 ["1;", "2;"] rfl "x" (by decide)

/-- C2: an identifier is sent by `Query(q)` if and only if some table `i` has,
under the table-`i` fingerprint of `q`, a bucket that contains it; when no
table has a bucket under its fingerprint of `q` nothing is sent; and on an
index with at most `l` tables that can hash `q` the call does not panic. -/
theorem Query_produces_iff (env : Env) (lsh : Index env) (q : Point env) :
    (∀ key, key ∈ (Query env lsh q).1.out ↔
        ∃ (hvs : List Key) (i : Nat) (hv : Key) (table : Table) (bucket : List Key),
          Hash env lsh q = .ok hvs ∧ hvs[i]? = some hv ∧ lsh.tables[i]? = some table ∧
            table hv = some bucket ∧ key ∈ bucket) ∧
      ((∀ (hvs : List Key) (i : Nat) (hv : Key) (table : Table),
          Hash env lsh q = .ok hvs → hvs[i]? = some hv → lsh.tables[i]? = some table →
            table hv = none) → (Query env lsh q).1.out = []) ∧
      (Hashable env lsh q → lsh.tables.length ≤ lsh.l.toNat → (Query env lsh q).2 = none) := by
  have hmem : ∀ key, key ∈ (Query env lsh q).1.out ↔
      ∃ (hvs : List Key) (i : Nat) (hv : Key) (table : Table) (bucket : List Key),
        Hash env lsh q = .ok hvs ∧ hvs[i]? = some hv ∧ lsh.tables[i]? = some table ∧
          table hv = some bucket ∧ key ∈ bucket := by
    intro key
    cases hh : Hash env lsh q with
    | error e =>
      rw [(Query_out_of_hash_error lsh q e hh).1]
      simp
    | ok hvs0 =>
      rw [Query_out_of_hash lsh q hvs0 hh, mem_keepFirst, mem_matchingBuckets]
      constructor
      · rintro ⟨i, hv, table, bucket, h1, h2, h3, h4⟩
        exact ⟨hvs0, i, hv, table, bucket, rfl, h1, h2, h3, h4⟩
      · rintro ⟨hvs, i, hv, table, bucket, h0, h1, h2, h3, h4⟩
        simp only [Except.ok.injEq] at h0
        subst h0
        exact ⟨i, hv, table, bucket, h1, h2, h3, h4⟩
  refine ⟨hmem, ?_, ?_⟩
  · intro hnone
    apply List.eq_nil_iff_forall_not_mem.2
    intro key hkey
    obtain ⟨hvs, i, hv, table, bucket, h0, h1, h2, h3, _⟩ := (hmem key).1 hkey
    rw [hnone hvs i hv table h0 h1 h2] at h3
    exact absurd h3 (by simp)
  · intro hp hlen
    obtain ⟨hvs, hh, hl⟩ := Hash_returns lsh q hp
    simp only [Query, hh]
    exact queryLoop_panic _ _ _ _ (by omega)

/-- Witness of C2: no table of `demoFull` has a bucket under the fingerprints
`"4;"`, `"5;"` of `[9, 9]`, and `Query` returns without sending anything. -/
theorem Query_produces_iff_witness :
    (Query intEnv demoFull [9, 9]).1.out = [] ∧ (Query intEnv demoFull [9, 9]).2 = none :=
  ⟨(Query_produces_iff intEnv demoFull [9, 9]).2.1 (by
      intro hvs i hv table h0 h1 h2
      have h0b : hvs = ["4;", "5;"] := by
        have : Hash intEnv demoFull [9, 9] = .ok ["4;", "5;"] := rfl
        rw [this] at h0
        exact (Except.ok.inj h0).symm
      subst h0b
      match i, h1, h2 with
      | 0, h1, h2 =>
        simp only [List.getElem?_cons_zero, Option.some.injEq] at h1
        have ht : table = GoMap.set GoMap.empty "1;" ["x", "y", "x"] := (Option.some.inj h2).symm
        subst h1 ht
        decide
      | 1, h1, h2 =>
        simp only [List.getElem?_cons_succ, List.getElem?_cons_zero, Option.some.injEq] at h1
        have ht : table = GoMap.set GoMap.empty "2;" ["y", "x", "z"] := (Option.some.inj h2).symm
        subst h1 ht
        decide
      | n + 2, h1, _ => simp at h1),
   (Query_produces_iff intEnv demoFull [9, 9]).2.2 (demoIndex_hashable _ 9 9) (by decide)⟩

/-- C3: the values sent by `Query`, in the order of the sends, are the
concatenation of the matching buckets in table order, each bucket in its
stored order, with every occurrence of an identifier after its first
removed; nothing is sent when `Hash` panics. -/
theorem Query_first_discovery_order (env : Env) (lsh : Index env) (q : Point env) :
    (∀ hvs, Hash env lsh q = .ok hvs →
        (Query env lsh q).1.out = keepFirst (matchingBuckets hvs lsh.tables)) ∧
      (∀ e, Hash env lsh q = .error e → (Query env lsh q).1.out = []) :=
  ⟨fun hvs hh => Query_out_of_hash lsh q hvs hh,
   fun e hh => (Query_out_of_hash_error lsh q e hh).1⟩

/-- Witness of C3: on `demoFull` the buckets `["x", "y", "x"]` and
`["y", "x", "z"]` match `[3, 4]` and `Query` sends `"x"`, `"y"`, `"z"`. -/
theorem Query_first_discovery_order_witness :
    (Query intEnv demoFull [3, 4]).1.out = ["x", "y", "z"] :=
  ((Query_first_discovery_order intEnv demoFull [3, 4]).1 ["1;", "2;"] rfl).trans (by decide)

/-- C8: `Query` is read-only: the receiver after the call, settings and
tables, is the receiver before it. -/
theorem Query_read_only (env : Env) (lsh : Index env) (q : Point env) :
    (Query env lsh q).1.lsh = lsh := by
  simp only [Query]
  cases Hash env lsh q with
  | error e => rfl
  | ok hvs => exact queryLoop_lsh _ _ _ _

/-! ## Theorems on `Insert` -/

/-- C4: on an index with `l` tables that can hash `p` (for a dot product that
needs equal lengths: `p` has the dimension of the projection vectors),
`Insert(id, p)` returns without panic and afterwards every table `i < l` has,
under the table-`i` fingerprint of `p`, the bucket it had before (the empty
list if it had none) with `id` appended at the end. -/
theorem Insert_appends (env : Env) (lsh : Index env) (id : Key) (p : Point env)
    (hp : Hashable env lsh p) (ht : lsh.tables.length = lsh.l.toNat) :
    (Insert env lsh id p).2 = none ∧
      ∃ hvs, Hash env lsh p = .ok hvs ∧
        ∀ i, i < lsh.l.toNat → ∃ (hv : Key) (table table1 : Table),
          hvs[i]? = some hv ∧ lsh.tables[i]? = some table ∧
            (Insert env lsh id p).1.tables[i]? = some table1 ∧
              table1 hv = some ((table hv).getD [] ++ [id]) := by
  obtain ⟨hvs, hh, _, hins, hall⟩ := Insert_step lsh id p hp ht
  refine ⟨by rw [hins], hvs, hh, ?_⟩
  intro i hi
  obtain ⟨hv, table, h1, h2, h3⟩ := hall i hi
  exact ⟨hv, table, insertTable table hv id, h1, h2, by rw [hins]; exact h3,
    insertTable_same table hv id⟩

/-- Witness of C4: `Insert("w", [3, 4])` on `demoFull` returns without panic
and leaves two tables. -/
theorem Insert_appends_witness :
    (Insert intEnv demoFull "w" [3, 4]).2 = none ∧
      ∃ hvs, Hash intEnv demoFull [3, 4] = .ok hvs ∧
        ∀ i, i < 2 → ∃ (hv : Key) (table table1 : Table),
          hvs[i]? = some hv ∧ demoFull.tables[i]? = some table ∧
            (Insert intEnv demoFull "w" [3, 4]).1.tables[i]? = some table1 ∧
              table1 hv = some ((table hv).getD [] ++ ["w"]) :=
  Insert_appends intEnv demoFull "w" [3, 4] (demoIndex_hashable _ 3 4) rfl

/-- C5: `Insert` only grows the tables, whether it returns or panics: the
number of tables is unchanged, every table is still there, every bucket
stored before the call is a prefix of the bucket stored under the same key
after it, and a bucket whose key is not the fingerprint of `p` for its table
is unchanged. -/
theorem Insert_only_grows (env : Env) (lsh : Index env) (id : Key) (p : Point env) :
    (Insert env lsh id p).1.tables.length = lsh.tables.length ∧
      ∀ (i : Nat) (table : Table), lsh.tables[i]? = some table →
        ∃ table1, (Insert env lsh id p).1.tables[i]? = some table1 ∧
          (∀ k bucket, table k = some bucket →
            ∃ bucket1, table1 k = some bucket1 ∧ bucket <+: bucket1) ∧
          (∀ k, (∀ hvs, Hash env lsh p = .ok hvs → hvs[i]? ≠ some k) → table1 k = table k) := by
  refine ⟨Insert_tables_length lsh id p, ?_⟩
  intro i table hti
  cases hh : Hash env lsh p with
  | error e =>
    rw [Insert_of_hash_error lsh id p e hh]
    exact ⟨table, hti, fun k bucket hb => ⟨bucket, hb, ⟨[], by simp⟩⟩, fun _ _ => rfl⟩
  | ok hvs =>
    rw [Insert_of_hash lsh id p hvs hh]
    cases hhv : hvs[i]? with
    | none =>
      refine ⟨table, ?_, fun k bucket hb => ⟨bucket, hb, ⟨[], by simp⟩⟩, fun _ _ => rfl⟩
      exact insertLoop_unvisited hvs id 0 lsh.tables i table hti (by rw [Nat.zero_add]; exact hhv)
    | some hv =>
      refine ⟨insertTable table hv id, ?_, ?_, ?_⟩
      · exact insertLoop_visited hvs id 0 lsh.tables i table hv hti
          (by rw [Nat.zero_add]; exact hhv)
      · intro k bucket hb
        by_cases hk : k = hv
        · subst hk
          exact ⟨bucket ++ [id], by rw [insertTable_same, hb]; rfl, ⟨[id], rfl⟩⟩
        · exact ⟨bucket, by rw [insertTable_other _ _ _ _ hk, hb], ⟨[], by simp⟩⟩
      · intro k hk
        have hne : k ≠ hv := fun h => hk hvs rfl (by rw [hhv, h])
        exact insertTable_other _ _ _ _ hne

/-- Witness of C5: after `Insert("w", [3, 4])` on `demoFull` the first table
still has the bucket `["x", "y", "x"]` as a prefix of its bucket under `"1;"`
and has no bucket under `"2;"`, as before. -/
theorem Insert_only_grows_witness :
    ∃ table1, (Insert intEnv demoFull "w" [3, 4]).1.tables[0]? = some table1 ∧
      (∃ bucket1, table1 "1;" = some bucket1 ∧ ["x", "y", "x"] <+: bucket1) ∧
        table1 "2;" = none := by
  obtain ⟨table1, h1, h2, h3⟩ :=
    (Insert_only_grows intEnv demoFull "w" [3, 4]).2 0
      (GoMap.set GoMap.empty "1;" ["x", "y", "x"]) rfl
  refine ⟨table1, h1, h2 "1;" ["x", "y", "x"] (by decide), ?_⟩
  rw [h3 "2;" (by
    intro hvs hh
    have : Hash intEnv demoFull [3, 4] = .ok ["1;", "2;"] := rfl
    rw [this] at hh
    rw [← Except.ok.inj hh]
    decide)]
  decide

/-- Repeated insertion on an index that has its `l` tables and can hash `p`:
`k` calls of `Insert(id, p)` in a row all return, and in each of the `l` tables
the bucket
under the fingerprint of `p` is the bucket from before followed by `k` copies
of `id`: the count of `id` in it grows by exactly `k`, and when the tables
were empty the bucket holds exactly `k` copies of `id` and nothing else. -/
theorem Insert_repeated (env : Env) (lsh : Index env) (id : Key) (p : Point env) (k : Nat)
    (hp : Hashable env lsh p) (ht : lsh.tables.length = lsh.l.toNat) :
    (insertTimes env id p k lsh).2 = none ∧
      ∃ hvs, Hash env lsh p = .ok hvs ∧
        ∀ i, i < lsh.l.toNat → ∃ (hv : Key) (table table1 : Table),
          hvs[i]? = some hv ∧ lsh.tables[i]? = some table ∧
            (insertTimes env id p k lsh).1.tables[i]? = some table1 ∧
              (table1 hv).getD [] = (table hv).getD [] ++ List.replicate k id ∧
              ((table1 hv).getD []).count id = ((table hv).getD []).count id + k ∧
              (table = GoMap.empty → (table1 hv).getD [] = List.replicate k id) := by
  obtain ⟨hpanic, hvs, hh, hall⟩ := insertTimes_spec id p k lsh hp ht
  refine ⟨hpanic, hvs, hh, ?_⟩
  intro i hi
  obtain ⟨hv, table, table1, h1, h2, h3, h4⟩ := hall i hi
  refine ⟨hv, table, table1, h1, h2, h3, h4, ?_, ?_⟩
  · rw [h4, List.count_append, List.count_replicate_self]
  · intro hempty
    rw [h4, hempty]
    simp [GoMap.empty]

/-- Example of `Insert_repeated`: three calls of `Insert("w", [3, 4])` on the
empty `demoIndex`, which has its two tables. -/
theorem Insert_repeated_witness :
    (insertTimes intEnv "w" [3, 4] 3 demoIndex).2 = none ∧
      ∃ hvs, Hash intEnv demoIndex [3, 4] = .ok hvs ∧
        ∀ i, i < 2 → ∃ (hv : Key) (table table1 : Table),
          hvs[i]? = some hv ∧ demoIndex.tables[i]? = some table ∧
            (insertTimes intEnv "w" [3, 4] 3 demoIndex).1.tables[i]? = some table1 ∧
              (table1 hv).getD [] = (table hv).getD [] ++ List.replicate 3 "w" ∧
              ((table1 hv).getD []).count "w" = ((table hv).getD []).count "w" + 3 ∧
              (table = GoMap.empty → (table1 hv).getD [] = List.replicate 3 "w") :=
  Insert_repeated intEnv demoIndex "w" [3, 4] 3 (demoIndex_hashable _ 3 4) rfl

/-! ## Theorems on construction and on points of the wrong length -/

/-- C6 (evaluation): on the index returned by `NewLshSettings(2, 1, 1, 4)`,
which has `l = 1` and no table, three calls of `Insert("w", (0, 0))` return
without panic and leave the index without any table: no bucket holds three
copies of `"w"`, and `Query((0, 0))` does not send `"w"` at all. -/
theorem Insert_repeated_on_new_index :
    ∃ lsh, NewLshSettings intEnv 2 1 1 (4 : Int) = .ok lsh ∧ lsh.l = 1 ∧
      (insertTimes intEnv "w" [0, 0] 3 lsh).2 = none ∧
      (insertTimes intEnv "w" [0, 0] 3 lsh).1.tables = [] ∧
      (Query intEnv (insertTimes intEnv "w" [0, 0] 3 lsh).1 [0, 0]).1.out.count "w" = 0 :=
  ⟨_, rfl, rfl, rfl, rfl, by decide⟩

/-- C7 (evaluation): `NewLshSettings(2, 4, 2, 4)` returns an index with
`l = 4` and no table at all: `tables` is never allocated. `Insert` on it
visits no table and a `Query` for the inserted point sends nothing. -/
theorem NewLshSettings_allocates_no_table :
    ∃ lsh, NewLshSettings intEnv 2 4 2 (4 : Int) = .ok lsh ∧ lsh.l = 4 ∧
      lsh.tables.length = 0 ∧
      (Insert intEnv lsh "1" [0, 0]).2 = none ∧
      (Insert intEnv lsh "1" [0, 0]).1.tables.length = 0 ∧
      (Query intEnv (Insert intEnv lsh "1" [0, 0]).1 [0, 0]).1.out = [] :=
  ⟨_, rfl, rfl, rfl, rfl, rfl, rfl⟩

/-- C9 (counterexample): two points whose length differs from `dim = 2` are
inserted without any failure and change the tables: `[7]` into `demoNoFn`,
where no hash function is evaluated, and `[3]` into `demoIndex`. `Query` for
them returns without failure as well. -/
theorem Insert_accepts_wrong_length :
    (demoNoFn.dim = 2 ∧ ([7] : List Int).length = 1 ∧
      (Insert intEnv demoNoFn "x" [7]).2 = none ∧
      (Insert intEnv demoNoFn "x" [7]).1.tables.map (fun t => t "") = [some ["x"]] ∧
      (Query intEnv demoNoFn [7]).2 = none) ∧
    (demoIndex.dim = 2 ∧ ([3] : List Int).length = 1 ∧
      (Insert intEnv demoIndex "x" [3]).2 = none ∧
      (Insert intEnv demoIndex "x" [3]).1.tables.map (fun t => t "1;") = [some ["x"], none] ∧
      (Query intEnv demoIndex [3]).2 = none) := by
  refine ⟨⟨rfl, rfl, rfl, ?_, rfl⟩, ⟨rfl, rfl, rfl, ?_, rfl⟩⟩ <;> decide

/-- C9 (amended): `Hash` never reads `dim`, so `Insert` and `Query` do not
compare the length of the point with it. When `Hash` panics, `Insert` stops
with that panic and leaves the receiver as it was, and `Query` sends nothing.
When `Hash` returns and the index has at most `l` tables, `Insert` and `Query`
return without panic and `Insert` has updated every table. -/
theorem Insert_all_or_nothing (env : Env) (lsh : Index env) (id : Key) (p : Point env) :
    (∀ d, Hash env { lsh with dim := d } p = Hash env lsh p) ∧
      (∀ e, Hash env lsh p = .error e →
        Insert env lsh id p = (lsh, some e) ∧
          (Query env lsh p).1.out = [] ∧ (Query env lsh p).2 = some e) ∧
      (∀ hvs, Hash env lsh p = .ok hvs → lsh.tables.length ≤ lsh.l.toNat →
        (Insert env lsh id p).2 = none ∧ (Query env lsh p).2 = none ∧
          ∀ (i : Nat) (table : Table), lsh.tables[i]? = some table →
            ∃ hv, hvs[i]? = some hv ∧
              (Insert env lsh id p).1.tables[i]? = some (insertTable table hv id)) := by
  refine ⟨fun d => Hash_congr _ _ _ rfl rfl rfl rfl rfl, ?_, ?_⟩
  · intro e hh
    exact ⟨Insert_of_hash_error lsh id p e hh, Query_out_of_hash_error lsh p e hh⟩
  · intro hvs hh hlen
    have hl := Hash_length lsh p hvs hh
    refine ⟨?_, ?_, ?_⟩
    · rw [Insert_of_hash lsh id p hvs hh]
      exact insertLoop_panic hvs id 0 lsh.tables (by omega)
    · simp only [Query, hh]
      exact queryLoop_panic _ _ _ _ (by omega)
    · intro i table hti
      have hi : i < lsh.tables.length := (List.getElem?_eq_some_iff.1 hti).1
      have h1 : hvs[i]? = some hvs[i] := List.getElem?_eq_getElem (by omega)
      refine ⟨hvs[i], h1, ?_⟩
      rw [Insert_of_hash lsh id p hvs hh]
      exact insertLoop_visited hvs id 0 lsh.tables i table _ hti (by rw [Nat.zero_add]; exact h1)

/-- Witness of C9 (amended): on `demoIndex` the dot product of the point
`[1, 2, 3]` with a projection vector of length 2 panics; `Insert` stops with
that panic and `demoIndex` is unchanged. -/
theorem Insert_all_or_nothing_witness :
    Insert intEnv demoIndex "x" [1, 2, 3] = (demoIndex, some .indexOutOfRange) ∧
      (Query intEnv demoIndex [1, 2, 3]).1.out = [] ∧
      (Query intEnv demoIndex [1, 2, 3]).2 = some .indexOutOfRange :=
  (Insert_all_or_nothing intEnv demoIndex "x" [1, 2, 3]).2.1 .indexOutOfRange rfl

/-- C10 (counterexample): `NewLshSettings(0, 0, 0, 0)` returns settings, with
empty parameter arrays, instead of failing. -/
theorem NewLshSettings_accepts_zero :
    ∃ lsh, NewLshSettings intEnv 0 0 0 (0 : Int) = .ok lsh ∧ lsh.a = [] ∧ lsh.b = [] :=
  ⟨_, rfl, rfl, rfl⟩

/-- C10 (amended): `NewLshSettings` validates nothing and never inspects `w`.
It returns settings exactly when every `make` it reaches is given a length
that `make` accepts, neither negative nor above what can be allocated: when
`0 ≤ l ≤ maxSlices` and, unless `l = 0`, `0 ≤ m ≤ maxSlices`, `m ≤ maxFloats`
and, unless `m = 0`, `0 ≤ dim ≤ maxFloats`; whatever `w` is. In every other
case a `make` panics. With `l = 0` the returned `a` and `b` are empty, with
`m = 0` their rows are. -/
theorem NewLshSettings_returns_iff (env : Env) (dim l m : Int) (w : env.F) :
    ((∃ lsh, NewLshSettings env dim l m w = .ok lsh) ↔
        ((0 ≤ l ∧ l ≤ env.maxSlices) ∧
          (l = 0 ∨ ((0 ≤ m ∧ m ≤ env.maxSlices ∧ m ≤ env.maxFloats) ∧
            (m = 0 ∨ (0 ≤ dim ∧ dim ≤ env.maxFloats)))))) ∧
      (∀ e, NewLshSettings env dim l m w = .error e → e = .makesliceLenOutOfRange) ∧
      (∀ w1 : env.F, (∃ lsh, NewLshSettings env dim l m w = .ok lsh) ↔
        ∃ lsh, NewLshSettings env dim l m w1 = .ok lsh) ∧
      (l = 0 → ∃ lsh, NewLshSettings env dim l m w = .ok lsh ∧ lsh.a = [] ∧ lsh.b = []) ∧
      (0 < l → l ≤ env.maxSlices → m = 0 →
        ∃ lsh, NewLshSettings env dim l m w = .ok lsh ∧
          lsh.a = List.replicate l.toNat [] ∧ lsh.b = List.replicate l.toNat []) := by
  have key : ∀ w0 : env.F, (∃ lsh, NewLshSettings env dim l m w0 = .ok lsh) ↔
      ((0 ≤ l ∧ l ≤ env.maxSlices) ∧
        (l = 0 ∨ ((0 ≤ m ∧ m ≤ env.maxSlices ∧ m ≤ env.maxFloats) ∧
          (m = 0 ∨ (0 ≤ dim ∧ dim ≤ env.maxFloats))))) := by
    intro w0
    constructor
    · rintro ⟨lsh, h⟩
      by_cases hl : makeRejects env.maxSlices l
      · simp [NewLshSettings, hl] at h
      · have hl1 : 0 ≤ l ∧ l ≤ env.maxSlices := by
          unfold makeRejects at hl
          omega
        refine ⟨hl1, ?_⟩
        by_cases hl0 : l = 0
        · exact Or.inl hl0
        · by_cases hbad : (makeRejects env.maxSlices m ∨ makeRejects env.maxFloats m) ∨
              (0 < m ∧ makeRejects env.maxFloats dim)
          · obtain ⟨n, hn⟩ : ∃ n, l.toNat = n + 1 := ⟨l.toNat - 1, by omega⟩
            simp [NewLshSettings, hl, hn, drawRows_fails env dim m w0 n _ hbad] at h
          · right
            unfold makeRejects at hbad
            omega
    · rintro ⟨hl1, hrest⟩
      have hl : ¬ makeRejects env.maxSlices l := by
        unfold makeRejects
        omega
      have hret : ∃ res, drawRows env dim m w0 l.toNat (env.newSource rand_seed) = .ok res := by
        apply drawRows_returns
        rcases hrest with h | ⟨hm, hd⟩
        · left; simp [h]
        · right
          unfold makeRejects
          omega
      obtain ⟨⟨⟨a, b⟩, r⟩, hres⟩ := hret
      simp only [NewLshSettings, if_neg hl, hres]
      exact ⟨_, rfl⟩
  refine ⟨key w, ?_, fun w1 => (key w).trans (key w1).symm, ?_, ?_⟩
  · intro e h
    simp only [NewLshSettings] at h
    split at h
    · exact (Except.error.inj h).symm
    · split at h
      · next e1 he =>
        rw [← Except.error.inj h]
        exact (drawRows_error _ _ _ _ _ _ _ he).1
      · exact absurd h (by simp)
  · intro hl
    subst hl
    have h0 : ¬ makeRejects env.maxSlices 0 := makeRejects_zero _
    simp only [NewLshSettings, if_neg h0]
    exact ⟨_, rfl, rfl, rfl⟩
  · intro hl hl2 hm
    subst hm
    have hl0 : ¬ makeRejects env.maxSlices l := by
      unfold makeRejects
      omega
    obtain ⟨r1, hr1⟩ := drawRows_zero_fn env dim w l.toNat (env.newSource rand_seed)
    simp only [NewLshSettings, if_neg hl0, hr1]
    exact ⟨_, rfl, rfl, rfl⟩

/-- Witness of C10 (amended): over `intEnv`, whose limits are those of a 64-bit
platform, `NewLshSettings(2, 0, -1, 0)` returns settings with empty parameter
arrays, `NewLshSettings(2, 4, 2, -3)`, with a negative bucket width, returns
settings, and `NewLshSettings(1, 1<<62, 0, 1)` does not return. -/
theorem NewLshSettings_returns_iff_witness :
    (∃ lsh, NewLshSettings intEnv 2 0 (-1) (0 : Int) = .ok lsh ∧ lsh.a = [] ∧ lsh.b = []) ∧
      (∃ lsh, NewLshSettings intEnv 2 4 2 (-3 : Int) = .ok lsh) ∧
      ¬ ∃ lsh, NewLshSettings intEnv 1 (2 ^ 62) 0 (1 : Int) = .ok lsh :=
  ⟨(NewLshSettings_returns_iff intEnv 2 0 (-1) (0 : Int)).2.2.2.1 rfl,
   (NewLshSettings_returns_iff intEnv 2 4 2 (-3 : Int)).1.2
     ⟨by decide, Or.inr ⟨by decide, Or.inr (by decide)⟩⟩,
   fun h => absurd ((NewLshSettings_returns_iff intEnv 1 (2 ^ 62) 0 (1 : Int)).1.1 h).1.2
     (by decide)⟩

/-! ## Further lemmas on `Hash` -/

theorem hashValue_ok {env : Env} (lsh : Index env) (p : Point env) (i j : Nat) (v : env.F)
    (h : hashValue env lsh p i j = .ok v) :
    ∃ (ai : List (Point env)) (aij : Point env) (d : env.F) (bi : List env.F) (bij : env.F),
      lsh.a[i]? = some ai ∧ ai[j]? = some aij ∧ env.dot p aij = .ok d ∧
        lsh.b[i]? = some bi ∧ bi[j]? = some bij ∧ v = env.div (env.add d bij) lsh.w := by
  simp only [hashValue, index] at h
  cases h1 : lsh.a[i]? with
  | none => simp [h1] at h
  | some ai =>
    cases h2 : ai[j]? with
    | none => simp [h1, h2] at h
    | some aij =>
      cases h3 : env.dot p aij with
      | error e => simp [h1, h2, h3] at h
      | ok d =>
        cases h4 : lsh.b[i]? with
        | none => simp [h1, h2, h3, h4] at h
        | some bi =>
          cases h5 : bi[j]? with
          | none => simp [h1, h2, h3, h4, h5] at h
          | some bij =>
            simp only [h1, h2, h3, h4, h5, Except.ok.injEq] at h
            exact ⟨ai, aij, d, bi, bij, rfl, h2, h3, rfl, h5, h.symm⟩

theorem hashLoop_spec {env : Env} (lsh : Index env) (p : Point env) (i n j : Nat)
    (s key : String) (h : hashLoop env lsh p i n j s = .ok key) :
    ∃ vals : List env.F, vals.length = n ∧
      (∀ k, k < n → ∃ v, vals[k]? = some v ∧ hashValue env lsh p i (j + k) = .ok v) ∧
      key = (vals.map env.sprintf16x).foldl (fun r t => r ++ t) s := by
  induction n generalizing j s with
  | zero =>
    simp only [hashLoop, Except.ok.injEq] at h
    exact ⟨[], rfl, fun k hk => absurd hk (Nat.not_lt_zero k), h.symm⟩
  | succ n ih =>
    simp only [hashLoop] at h
    cases hv : hashValue env lsh p i j with
    | error e => simp [hv] at h
    | ok v =>
      simp only [hv] at h
      obtain ⟨vals, hlen, hall, hkey⟩ := ih (j + 1) _ h
      refine ⟨v :: vals, by simp [hlen], ?_, by simpa using hkey⟩
      intro k hk
      cases k with
      | zero => exact ⟨v, by simp, by simpa using hv⟩
      | succ k =>
        obtain ⟨v1, h1, h2⟩ := hall k (by omega)
        exact ⟨v1, by simpa using h1, by rw [← h2]; congr 1; omega⟩

theorem hashRows_spec {env : Env} (lsh : Index env) (p : Point env) (n i : Nat)
    (hvs : List Key) (h : hashRows env lsh p n i = .ok hvs) :
    ∀ k, k < n → ∃ key, hvs[k]? = some key ∧
      hashLoop env lsh p (i + k) lsh.m.toNat 0 "" = .ok key := by
  induction n generalizing i hvs with
  | zero => exact fun k hk => absurd hk (Nat.not_lt_zero k)
  | succ n ih =>
    simp only [hashRows] at h
    cases hs : hashLoop env lsh p i lsh.m.toNat 0 "" with
    | error e => simp [hs] at h
    | ok s =>
      cases hr : hashRows env lsh p n (i + 1) with
      | error e => simp [hs, hr] at h
      | ok rest =>
        simp only [hs, hr, Except.ok.injEq] at h
        subst h
        intro k hk
        cases k with
        | zero => exact ⟨s, by simp, by simpa using hs⟩
        | succ k =>
          obtain ⟨key, h1, h2⟩ := ih (i + 1) rest hr k (by omega)
          exact ⟨key, by simpa using h1, by rw [← h2]; congr 1; omega⟩

/-- What `Hash` returns: one fingerprint per table, the `i`-th one the
concatenation of the encodings of the quantized values of table `i`. -/
theorem Hash_spec {env : Env} (lsh : Index env) (p : Point env) (hvs : List Key)
    (h : Hash env lsh p = .ok hvs) :
    hvs.length = lsh.l.toNat ∧
      ∀ i, i < lsh.l.toNat → ∃ vals : List env.F, vals.length = lsh.m.toNat ∧
        (∀ j, j < lsh.m.toNat →
          ∃ (ai : List (Point env)) (aij : Point env) (d : env.F) (bi : List env.F)
            (bij : env.F),
            lsh.a[i]? = some ai ∧ ai[j]? = some aij ∧ env.dot p aij = .ok d ∧
              lsh.b[i]? = some bi ∧ bi[j]? = some bij ∧
              vals[j]? = some (env.div (env.add d bij) lsh.w)) ∧
        hvs[i]? = some (String.join (vals.map env.sprintf16x)) := by
  refine ⟨Hash_length lsh p hvs h, ?_⟩
  intro i hi
  have hrows : hashRows env lsh p lsh.l.toNat 0 = .ok hvs := by
    simp only [Hash] at h
    split at h
    · exact absurd h (by simp)
    · exact h
  obtain ⟨key, hkey, hloop⟩ := hashRows_spec lsh p _ 0 hvs hrows i hi
  rw [Nat.zero_add] at hloop
  obtain ⟨vals, hlen, hall, hk⟩ := hashLoop_spec lsh p i _ 0 "" key hloop
  refine ⟨vals, hlen, ?_, by rw [hkey, hk]; rfl⟩
  intro j hj
  obtain ⟨v, hv1, hv2⟩ := hall j hj
  rw [Nat.zero_add] at hv2
  obtain ⟨ai, aij, d, bi, bij, h1, h2, h3, h4, h5, h6⟩ := hashValue_ok lsh p i j v hv2
  exact ⟨ai, aij, d, bi, bij, h1, h2, h3, h4, h5, by rw [hv1, h6]⟩

/-! ## Further lemmas on `NewLshSettings` -/

theorem drawPoint_length (env : Env) (n : Nat) (r : env.R) :
    (drawPoint env n r).1.length = n := by
  induction n generalizing r with
  | zero => rfl
  | succ n ih => simp only [drawPoint, List.length_cons, ih]

theorem drawRow_shape (env : Env) (dim : Int) (w : env.F) (n : Nat) (r r1 : env.R)
    (ps : List (Point env)) (bs : List env.F)
    (h : drawRow env dim w n r = .ok ((ps, bs), r1)) :
    ps.length = n ∧ bs.length = n ∧ ∀ v ∈ ps, v.length = dim.toNat := by
  induction n generalizing r r1 ps bs with
  | zero =>
    simp only [drawRow, Except.ok.injEq, Prod.mk.injEq] at h
    obtain ⟨⟨h1, h2⟩, _⟩ := h
    subst h1 h2
    simp
  | succ n ih =>
    simp only [drawRow] at h
    split at h
    · exact absurd h (by simp)
    · split at h
      · exact absurd h (by simp)
      · next ps0 bs0 r3 hrec =>
        simp only [Except.ok.injEq, Prod.mk.injEq] at h
        obtain ⟨⟨h1, h2⟩, _⟩ := h
        subst h1 h2
        obtain ⟨g1, g2, g3⟩ := ih _ _ _ _ hrec
        refine ⟨by simp [g1], by simp [g2], ?_⟩
        intro v hv
        rcases List.mem_cons.1 hv with hv | hv
        · rw [hv]; exact drawPoint_length env _ _
        · exact g3 v hv

theorem drawRows_shape (env : Env) (dim m : Int) (w : env.F) (n : Nat) (r r1 : env.R)
    (a : List (List (Point env))) (b : List (List env.F))
    (h : drawRows env dim m w n r = .ok ((a, b), r1)) :
    a.length = n ∧ b.length = n ∧
      (∀ row ∈ a, row.length = m.toNat ∧ ∀ v ∈ row, v.length = dim.toNat) ∧
      (∀ row ∈ b, row.length = m.toNat) := by
  induction n generalizing r r1 a b with
  | zero =>
    simp only [drawRows, Except.ok.injEq, Prod.mk.injEq] at h
    obtain ⟨⟨h1, h2⟩, _⟩ := h
    subst h1 h2
    simp
  | succ n ih =>
    simp only [drawRows] at h
    split at h
    · exact absurd h (by simp)
    · split at h
      · exact absurd h (by simp)
      · next ps bs r2 hrow =>
        split at h
        · exact absurd h (by simp)
        · next a0 b0 r3 hrec =>
          simp only [Except.ok.injEq, Prod.mk.injEq] at h
          obtain ⟨⟨h1, h2⟩, _⟩ := h
          subst h1 h2
          obtain ⟨g1, g2, g3, g4⟩ := ih _ _ _ _ hrec
          obtain ⟨k1, k2, k3⟩ := drawRow_shape env dim w _ _ _ _ _ hrow
          refine ⟨by simp [g1], by simp [g2], ?_, ?_⟩
          · intro row hrow1
            rcases List.mem_cons.1 hrow1 with hr | hr
            · rw [hr]; exact ⟨k1, k3⟩
            · exact g3 row hr
          · intro row hrow1
            rcases List.mem_cons.1 hrow1 with hr | hr
            · rw [hr]; exact k2
            · exact g4 row hr

theorem NewLshSettings_draws (env : Env) (dim l m : Int) (w : env.F) (lsh : Index env)
    (h : NewLshSettings env dim l m w = .ok lsh) :
    0 ≤ l ∧ ∃ r, drawRows env dim m w l.toNat (env.newSource rand_seed) =
      .ok ((lsh.a, lsh.b), r) := by
  simp only [NewLshSettings] at h
  split at h
  · exact absurd h (by simp)
  · next hl =>
    split at h
    · exact absurd h (by simp)
    · next a b r hrows =>
      have := Except.ok.inj h
      subst this
      exact ⟨by omega, r, hrows⟩

theorem NewLshSettings_wellShaped (env : Env) (dim l m : Int) (w : env.F) (lsh : Index env)
    (h : NewLshSettings env dim l m w = .ok lsh) : WellShaped lsh := by
  obtain ⟨hl, r, hrows⟩ := NewLshSettings_draws env dim l m w lsh h
  obtain ⟨f1, f2, f3, _, f5⟩ := NewLshSettings_fields env dim l m w lsh h
  obtain ⟨g1, g2, g3, g4⟩ := drawRows_shape env dim m w _ _ _ _ _ hrows
  refine ⟨by rw [f2]; exact hl, by rw [f2]; exact g1, by rw [f2]; exact g2, ?_, ?_, ?_⟩
  · rw [f1, f3]; exact g3
  · rw [f3]; exact g4
  · rw [f5]; exact Nat.zero_le _

/-! ## Lemmas on sequences of calls -/

theorem Insert_settings {env : Env} (lsh : Index env) (key : Key) (p : Point env) :
    (Insert env lsh key p).1.dim = lsh.dim ∧ (Insert env lsh key p).1.l = lsh.l ∧
      (Insert env lsh key p).1.m = lsh.m ∧ (Insert env lsh key p).1.w = lsh.w ∧
      (Insert env lsh key p).1.a = lsh.a ∧ (Insert env lsh key p).1.b = lsh.b := by
  cases hh : Hash env lsh p with
  | error e => rw [Insert_of_hash_error lsh key p e hh]; exact ⟨rfl, rfl, rfl, rfl, rfl, rfl⟩
  | ok hvs => rw [Insert_of_hash lsh key p hvs hh]; exact ⟨rfl, rfl, rfl, rfl, rfl, rfl⟩

theorem Query_lsh {env : Env} (lsh : Index env) (q : Point env) :
    (Query env lsh q).1.lsh = lsh := by
  simp only [Query]
  cases Hash env lsh q with
  | error e => rfl
  | ok hvs => exact queryLoop_lsh _ _ _ _

theorem applyOp_settings {env : Env} (lsh : Index env) (op : Op env) :
    (applyOp env lsh op).dim = lsh.dim ∧ (applyOp env lsh op).l = lsh.l ∧
      (applyOp env lsh op).m = lsh.m ∧ (applyOp env lsh op).w = lsh.w ∧
      (applyOp env lsh op).a = lsh.a ∧ (applyOp env lsh op).b = lsh.b := by
  cases op with
  | insert key point => exact Insert_settings lsh key point
  | query q =>
    simp only [applyOp, Query_lsh]
    exact ⟨trivial, trivial, trivial, trivial, trivial, trivial⟩

theorem runOps_settings {env : Env} (ops : List (Op env)) (lsh : Index env) :
    (runOps env ops lsh).dim = lsh.dim ∧ (runOps env ops lsh).l = lsh.l ∧
      (runOps env ops lsh).m = lsh.m ∧ (runOps env ops lsh).w = lsh.w ∧
      (runOps env ops lsh).a = lsh.a ∧ (runOps env ops lsh).b = lsh.b := by
  induction ops generalizing lsh with
  | nil => exact ⟨rfl, rfl, rfl, rfl, rfl, rfl⟩
  | cons op ops ih =>
    obtain ⟨h1, h2, h3, h4, h5, h6⟩ := ih (applyOp env lsh op)
    obtain ⟨g1, g2, g3, g4, g5, g6⟩ := applyOp_settings lsh op
    simp only [runOps]
    exact ⟨h1.trans g1, h2.trans g2, h3.trans g3, h4.trans g4, h5.trans g5, h6.trans g6⟩

theorem Insert_wellShaped {env : Env} (lsh : Index env) (key : Key) (p : Point env)
    (h : WellShaped lsh) : WellShaped (Insert env lsh key p).1 := by
  obtain ⟨g1, g2, g3, g4, g5, g6⟩ := Insert_settings lsh key p
  obtain ⟨h1, h2, h3, h4, h5, h6⟩ := h
  refine ⟨by rw [g2]; exact h1, by rw [g5, g2]; exact h2, by rw [g6, g2]; exact h3, ?_, ?_, ?_⟩
  · rw [g5, g3, g1]; exact h4
  · rw [g6, g3]; exact h5
  · rw [Insert_tables_length, g2]; exact h6

theorem insertAll_wellShaped {env : Env} (ops : List (Key × Point env)) (lsh : Index env)
    (h : WellShaped lsh) : WellShaped (insertAll env ops lsh) := by
  induction ops generalizing lsh with
  | nil => exact h
  | cons op ops ih =>
    obtain ⟨key, point⟩ := op
    exact ih _ (Insert_wellShaped lsh key point h)

theorem insertAll_settings {env : Env} (ops : List (Key × Point env)) (lsh : Index env) :
    (insertAll env ops lsh).dim = lsh.dim ∧ (insertAll env ops lsh).l = lsh.l ∧
      (insertAll env ops lsh).m = lsh.m := by
  induction ops generalizing lsh with
  | nil => exact ⟨rfl, rfl, rfl⟩
  | cons op ops ih =>
    obtain ⟨key, point⟩ := op
    obtain ⟨h1, h2, h3⟩ := ih (Insert env lsh key point).1
    obtain ⟨g1, g2, g3, _⟩ := Insert_settings lsh key point
    simp only [insertAll]
    exact ⟨h1.trans g1, h2.trans g2, h3.trans g3⟩

theorem wellShaped_params {env : Env} (lsh : Index env) (h : WellShaped lsh) (i j : Nat)
    (hi : i < lsh.l.toNat) (hj : j < lsh.m.toNat) :
    ∃ (ai : List (Point env)) (aij : Point env) (bi : List env.F) (bij : env.F),
      lsh.a[i]? = some ai ∧ ai[j]? = some aij ∧ aij.length = lsh.dim.toNat ∧
        lsh.b[i]? = some bi ∧ bi[j]? = some bij := by
  obtain ⟨_, h2, h3, h4, h5, _⟩ := h
  have hia : i < lsh.a.length := by omega
  have hib : i < lsh.b.length := by omega
  have ha := h4 lsh.a[i] (List.getElem_mem hia)
  have hb := h5 lsh.b[i] (List.getElem_mem hib)
  have hja : j < lsh.a[i].length := by omega
  have hjb : j < lsh.b[i].length := by omega
  exact ⟨lsh.a[i], lsh.a[i][j], lsh.b[i], lsh.b[i][j], List.getElem?_eq_getElem hia,
    List.getElem?_eq_getElem hja, ha.2 _ (List.getElem_mem hja), List.getElem?_eq_getElem hib,
    List.getElem?_eq_getElem hjb⟩

theorem wellShaped_hashable {env : Env} (lsh : Index env) (p : Point env)
    (h : WellShaped lsh)
    (hdot : ∀ v : Point env, v.length = lsh.dim.toNat → ∃ d, env.dot p v = .ok d) :
    Hashable env lsh p := by
  refine ⟨h.1, ?_⟩
  intro i hi j hj
  obtain ⟨ai, aij, bi, bij, h1, h2, h3, h4, h5⟩ := wellShaped_params lsh h i j hi hj
  obtain ⟨d, hd⟩ := hdot aij h3
  exact ⟨ai, aij, d, bi, bij, h1, h2, hd, h4, h5⟩

theorem Insert_keeps_member {env : Env} (lsh : Index env) (key : Key) (p : Point env)
    (i : Nat) (table : Table) (k x : Key) (bucket : List Key)
    (ht : lsh.tables[i]? = some table) (hb : table k = some bucket) (hx : x ∈ bucket) :
    ∃ (table1 : Table) (bucket1 : List Key),
      (Insert env lsh key p).1.tables[i]? = some table1 ∧ table1 k = some bucket1 ∧
        x ∈ bucket1 := by
  cases hh : Hash env lsh p with
  | error e =>
    rw [Insert_of_hash_error lsh key p e hh]
    exact ⟨table, bucket, ht, hb, hx⟩
  | ok hvs =>
    rw [Insert_of_hash lsh key p hvs hh]
    cases hhv : hvs[i]? with
    | none =>
      exact ⟨table, bucket,
        insertLoop_unvisited hvs key 0 lsh.tables i table ht (by rw [Nat.zero_add]; exact hhv),
        hb, hx⟩
    | some hv =>
      have hvis := insertLoop_visited hvs key 0 lsh.tables i table hv ht
        (by rw [Nat.zero_add]; exact hhv)
      by_cases hk : k = hv
      · subst hk
        exact ⟨insertTable table k key, bucket ++ [key], hvis,
          by rw [insertTable_same, hb]; rfl, List.mem_append_left _ hx⟩
      · exact ⟨insertTable table hv key, bucket, hvis,
          by rw [insertTable_other _ _ _ _ hk, hb], hx⟩

theorem insertAll_keeps_member {env : Env} (ops : List (Key × Point env)) (lsh : Index env)
    (i : Nat) (table : Table) (k x : Key) (bucket : List Key)
    (ht : lsh.tables[i]? = some table) (hb : table k = some bucket) (hx : x ∈ bucket) :
    ∃ (table1 : Table) (bucket1 : List Key),
      (insertAll env ops lsh).tables[i]? = some table1 ∧ table1 k = some bucket1 ∧
        x ∈ bucket1 := by
  induction ops generalizing lsh table bucket with
  | nil => exact ⟨table, bucket, ht, hb, hx⟩
  | cons op ops ih =>
    obtain ⟨key, point⟩ := op
    obtain ⟨t1, b1, h1, h2, h3⟩ := Insert_keeps_member lsh key point i table k x bucket ht hb hx
    exact ih _ t1 b1 h1 h2 h3

theorem insertAll_hash {env : Env} (ops : List (Key × Point env)) (lsh : Index env)
    (p : Point env) : Hash env (insertAll env ops lsh) p = Hash env lsh p := by
  induction ops generalizing lsh with
  | nil => rfl
  | cons op ops ih =>
    obtain ⟨key, point⟩ := op
    obtain ⟨_, g2, g3, g4, g5, g6⟩ := Insert_settings lsh key point
    simp only [insertAll]
    rw [ih]
    exact Hash_congr _ _ _ g2 g3 g5 g6 g4

/-- Round trip on an index that has its `l ≥ 1` tables: after `Insert(id, p)`
and any further calls of `Insert`, `Query(p)` sends `id`. -/
theorem Insert_then_Query {env : Env} (lsh : Index env) (id : Key) (p : Point env)
    (ops : List (Key × Point env)) (hp : Hashable env lsh p)
    (ht : lsh.tables.length = lsh.l.toNat) (hl : 0 < lsh.l.toNat) :
    id ∈ (Query env (insertAll env ops (Insert env lsh id p).1) p).1.out := by
  obtain ⟨hvs, hh, _, hins, hall⟩ := Insert_step lsh id p hp ht
  obtain ⟨hv, table, h1, _, h3⟩ := hall 0 hl
  have h3b : (Insert env lsh id p).1.tables[0]? = some (insertTable table hv id) := by
    rw [hins]; exact h3
  obtain ⟨t1, b1, k1, k2, k3⟩ :=
    insertAll_keeps_member ops (Insert env lsh id p).1 0 (insertTable table hv id) hv id
      ((table hv).getD [] ++ [id]) h3b (insertTable_same table hv id) (by simp)
  have hhash : Hash env (insertAll env ops (Insert env lsh id p).1) p = .ok hvs := by
    rw [insertAll_hash]
    obtain ⟨_, g2, g3, g4, g5, g6⟩ := Insert_settings lsh id p
    rw [Hash_congr _ lsh p g2 g3 g5 g6 g4, hh]
  rw [Query_out_of_hash _ p hvs hhash, mem_keepFirst, mem_matchingBuckets]
  exact ⟨0, hv, t1, b1, h1, k1, k2, k3⟩

theorem intDot_pair (p0 p1 : Int) (v : List Int) (hv : v.length = 2) :
    ∃ d, intDot [p0, p1] v = .ok d := by
  match v, hv with
  | [y0, y1], _ => exact ⟨p0 * y0 + (p1 * y1 + 0), rfl⟩

/-! ## Lemmas on the random sources -/

theorem RandWorld.setGen_gens {env : Env} (wd : RandWorld env) (g : Nat) (r : env.R) :
    (wd.setGen g r).gens g = r := by
  simp [RandWorld.setGen]

theorem RandWorld.setGen_setGen {env : Env} (wd : RandWorld env) (g : Nat) (r r1 : env.R) :
    (wd.setGen g r).setGen g r1 = wd.setGen g r1 := by
  cases wd
  simp only [RandWorld.setGen, RandWorld.mk.injEq, true_and, and_true]
  funext k
  by_cases hk : k = g <;> simp [hk]

theorem RandWorld.setGen_self {env : Env} (wd : RandWorld env) (g : Nat) :
    wd.setGen g (wd.gens g) = wd := by
  cases wd
  simp only [RandWorld.setGen, RandWorld.mk.injEq, true_and, and_true]
  funext k
  by_cases hk : k = g <;> simp [hk]

theorem RandWorld.setGen_frame {env : Env} (wd : RandWorld env) (g : Nat) (r : env.R) :
    (wd.setGen g r).shared = wd.shared ∧ (wd.setGen g r).next = wd.next ∧
      ∀ k, k ≠ g → (wd.setGen g r).gens k = wd.gens k := by
  refine ⟨rfl, rfl, ?_⟩
  intro k hk
  simp [RandWorld.setGen, hk]

theorem drawPointIn_eq (env : Env) (g n : Nat) (wd : RandWorld env) :
    drawPointIn env g n wd =
      ((drawPoint env n (wd.gens g)).1, wd.setGen g (drawPoint env n (wd.gens g)).2) := by
  induction n generalizing wd with
  | zero => simp [drawPointIn, drawPoint, RandWorld.setGen_self]
  | succ n ih =>
    simp only [drawPointIn, drawPoint, RandWorld.normFloat64, ih, RandWorld.setGen_gens,
      RandWorld.setGen_setGen]

theorem drawRowIn_eq (env : Env) (g : Nat) (dim : Int) (w : env.F) (n : Nat)
    (wd : RandWorld env) :
    drawRowIn env g dim w n wd =
      match drawRow env dim w n (wd.gens g) with
      | .ok (res, r1) => (.ok res, wd.setGen g r1)
      | .error e => (.error e, wd) := by
  induction n generalizing wd with
  | zero => simp [drawRowIn, drawRow, RandWorld.setGen_self]
  | succ n ih =>
    by_cases hd : makeRejects env.maxFloats dim
    · simp only [drawRowIn, drawRow, if_pos hd]
    · obtain ⟨⟨⟨ps, bs⟩, r3⟩, hres⟩ := drawRow_returns env dim w hd n
        (env.float64 (drawPoint env dim.toNat (wd.gens g)).2).2
      simp only [drawRowIn, drawRow, if_neg hd, drawPointIn_eq, RandWorld.float64, ih,
        RandWorld.setGen_gens, RandWorld.setGen_setGen, hres]

theorem drawRowsIn_eq (env : Env) (g : Nat) (dim m : Int) (w : env.F) (n : Nat)
    (wd : RandWorld env) :
    drawRowsIn env g dim m w n wd =
      match drawRows env dim m w n (wd.gens g) with
      | .ok (res, r1) => (.ok res, wd.setGen g r1)
      | .error e => (.error e, wd) := by
  induction n generalizing wd with
  | zero => simp [drawRowsIn, drawRows, RandWorld.setGen_self]
  | succ n ih =>
    by_cases hm : makeRejects env.maxSlices m ∨ makeRejects env.maxFloats m
    · simp only [drawRowsIn, drawRows, if_pos hm]
    · cases hrow : drawRow env dim w m.toNat (wd.gens g) with
      | error e => simp only [drawRowsIn, drawRows, if_neg hm, drawRowIn_eq, hrow]
      | ok res =>
        obtain ⟨⟨ps, bs⟩, r1⟩ := res
        have hok : m = 0 ∨ ¬ makeRejects env.maxFloats dim := by
          by_cases hm0 : m = 0
          · exact Or.inl hm0
          · right
            intro hd
            have hmpos : 0 < m := by
              unfold makeRejects at hm
              omega
            obtain ⟨k, hk⟩ : ∃ k, m.toNat = k + 1 := ⟨m.toNat - 1, by omega⟩
            rw [hk] at hrow
            simp [drawRow, hd] at hrow
        obtain ⟨⟨⟨a, b⟩, r2⟩, hrec⟩ := drawRows_returns env dim m w n r1 (Or.inr ⟨hm, hok⟩)
        simp only [drawRowsIn, drawRows, if_neg hm, drawRowIn_eq, hrow, ih,
          RandWorld.setGen_gens, RandWorld.setGen_setGen, hrec]

theorem NewLshSettingsIn_eq (env : Env) (wd : RandWorld env) (dim l m : Int) (w : env.F) :
    (NewLshSettingsIn env wd dim l m w).1 = NewLshSettings env dim l m w ∧
      (NewLshSettingsIn env wd dim l m w).2.shared = wd.shared ∧
      ∀ g, g < wd.next → (NewLshSettingsIn env wd dim l m w).2.gens g = wd.gens g := by
  by_cases hl : makeRejects env.maxSlices l
  · simp only [NewLshSettingsIn, NewLshSettings, if_pos hl]
    exact ⟨trivial, trivial, fun _ _ => trivial⟩
  · simp only [NewLshSettingsIn, NewLshSettings, if_neg hl, RandWorld.newRand, drawRowsIn_eq]
    have hg : ({ wd.setGen wd.next (env.newSource rand_seed) with next := wd.next + 1 } :
        RandWorld env).gens wd.next = env.newSource rand_seed := by
      simp [RandWorld.setGen]
    rw [hg]
    cases hrows : drawRows env dim m w l.toNat (env.newSource rand_seed) with
    | error e =>
      refine ⟨rfl, rfl, ?_⟩
      intro g hlt
      have hne : g ≠ wd.next := by omega
      simp [RandWorld.setGen, hne]
    | ok res =>
      obtain ⟨⟨a, b⟩, r1⟩ := res
      refine ⟨rfl, rfl, ?_⟩
      intro g hlt
      have hne : g ≠ wd.next := by omega
      simp [RandWorld.setGen, hne]

/-! ## Theorems on the parameters -/

/-- C11: two invocations of `NewLshSettings` with the same `(dim, l, m, w)`
give the same result, hence the same arrays `a` and `b`, in any two states of
the random sources of the program: whatever the shared source of `math/rand`
and the generators of earlier calls hold (first part), and in particular when
the second invocation runs in the world that the first one left (second
part). Each invocation draws from a generator that it makes itself from the
constant `rand_seed`; it leaves the shared source and every generator made
before as they were. -/
theorem NewLshSettings_deterministic (env : Env) (wd1 wd2 : RandWorld env) (dim l m : Int)
    (w : env.F) :
    (NewLshSettingsIn env wd1 dim l m w).1 = (NewLshSettingsIn env wd2 dim l m w).1 ∧
      (NewLshSettingsIn env (NewLshSettingsIn env wd1 dim l m w).2 dim l m w).1 =
        (NewLshSettingsIn env wd1 dim l m w).1 ∧
      (∀ lsh1 lsh2, (NewLshSettingsIn env wd1 dim l m w).1 = .ok lsh1 →
        (NewLshSettingsIn env wd2 dim l m w).1 = .ok lsh2 →
          lsh1.a = lsh2.a ∧ lsh1.b = lsh2.b) ∧
      (NewLshSettingsIn env wd1 dim l m w).2.shared = wd1.shared ∧
      ∀ g, g < wd1.next → (NewLshSettingsIn env wd1 dim l m w).2.gens g = wd1.gens g := by
  obtain ⟨h1, h2, h3⟩ := NewLshSettingsIn_eq env wd1 dim l m w
  have h4 := (NewLshSettingsIn_eq env wd2 dim l m w).1
  have h5 := (NewLshSettingsIn_eq env (NewLshSettingsIn env wd1 dim l m w).2 dim l m w).1
  refine ⟨h1.trans h4.symm, h5.trans h1.symm, ?_, h2, h3⟩
  intro lsh1 lsh2 g1 g2
  rw [h1] at g1
  rw [h4, g1] at g2
  have := Except.ok.inj g2
  subst this
  exact ⟨rfl, rfl⟩

/-- Witness of C11: over `intEnv`, in the world `demoWorld` where two
generators exist, `NewLshSettings(2, 2, 2, 3)` returns its arrays and leaves
both generators in their states 10 and 11. -/
theorem NewLshSettings_deterministic_witness :
    (∃ lsh, (NewLshSettingsIn intEnv demoWorld 2 2 2 (3 : Int)).1 = .ok lsh ∧
      lsh.a = [[[-1, 0], [2, 3]], [[5, 6], [8, 9]]] ∧ lsh.b = [[9, 6], [3, 0]]) ∧
      (NewLshSettingsIn intEnv demoWorld 2 2 2 (3 : Int)).2.gens 0 = 10 ∧
      (NewLshSettingsIn intEnv demoWorld 2 2 2 (3 : Int)).2.gens 1 = 11 :=
  ⟨⟨_, rfl, rfl, rfl⟩,
   (NewLshSettings_deterministic intEnv demoWorld demoWorld 2 2 2 (3 : Int)).2.2.2.2 0
     (by decide),
   (NewLshSettings_deterministic intEnv demoWorld demoWorld 2 2 2 (3 : Int)).2.2.2.2 1
     (by decide)⟩

/-- C16: when `NewLshSettings(dim, l, m, w)` returns, `a` has exactly `l` rows
of exactly `m` projection vectors of exactly `dim` components, `b` has exactly
`l` rows of exactly `m` offsets, and the stored `dim`, `l`, `m`, `w` are the
arguments. -/
theorem NewLshSettings_shapes (env : Env) (dim l m : Int) (w : env.F) (lsh : Index env)
    (h : NewLshSettings env dim l m w = .ok lsh) :
    (lsh.a.length : Int) = l ∧ (lsh.b.length : Int) = l ∧
      (∀ row ∈ lsh.a, (row.length : Int) = m ∧ ∀ v ∈ row, (v.length : Int) = dim) ∧
      (∀ row ∈ lsh.b, (row.length : Int) = m) ∧
      lsh.dim = dim ∧ lsh.l = l ∧ lsh.m = m ∧ lsh.w = w := by
  obtain ⟨hl, r, hrows⟩ := NewLshSettings_draws env dim l m w lsh h
  obtain ⟨f1, f2, f3, f4, _⟩ := NewLshSettings_fields env dim l m w lsh h
  obtain ⟨g1, g2, g3, g4⟩ := drawRows_shape env dim m w _ _ _ _ _ hrows
  have hm : 0 < l.toNat → 0 ≤ m := by
    intro hpos
    by_contra hneg
    obtain ⟨n, hn⟩ : ∃ n, l.toNat = n + 1 := ⟨l.toNat - 1, by omega⟩
    rw [hn, drawRows_fails env dim m w n _ (Or.inl (by omega))] at hrows
    exact absurd hrows (by simp)
  have hd : 0 < l.toNat → 0 < m.toNat → 0 ≤ dim := by
    intro hpos hmpos
    by_contra hneg
    obtain ⟨n, hn⟩ : ∃ n, l.toNat = n + 1 := ⟨l.toNat - 1, by omega⟩
    rw [hn, drawRows_fails env dim m w n _ (Or.inr ⟨by omega, by omega⟩)] at hrows
    exact absurd hrows (by simp)
  refine ⟨by omega, by omega, ?_, ?_, f1, f2, f3, f4⟩
  · intro row hrow
    have hpos : 0 < l.toNat := by
      rw [← g1]; exact List.length_pos_of_mem hrow
    obtain ⟨k1, k2⟩ := g3 row hrow
    have hm0 := hm hpos
    refine ⟨by omega, ?_⟩
    intro v hv
    have hmpos : 0 < m.toNat := by
      rw [← k1]; exact List.length_pos_of_mem hv
    have hd0 := hd hpos hmpos
    have := k2 v hv
    omega
  · intro row hrow
    have hpos : 0 < l.toNat := by
      rw [← g2]; exact List.length_pos_of_mem hrow
    have := g4 row hrow
    have hm0 := hm hpos
    omega

/-- Witness of C16: the shapes of the arrays of `NewLshSettings(2, 2, 2, 3)`
over `intEnv`. -/
theorem NewLshSettings_shapes_witness :
    ∃ lsh, NewLshSettings intEnv 2 2 2 (3 : Int) = .ok lsh ∧
      (lsh.a.length : Int) = 2 ∧ (lsh.b.length : Int) = 2 ∧
      (∀ row ∈ lsh.a, (row.length : Int) = 2 ∧ ∀ v ∈ row, (v.length : Int) = 2) ∧
      (∀ row ∈ lsh.b, (row.length : Int) = 2) ∧
      lsh.dim = 2 ∧ lsh.l = 2 ∧ lsh.m = 2 ∧ lsh.w = 3 :=
  ⟨_, rfl, NewLshSettings_shapes intEnv 2 2 2 (3 : Int) _ rfl⟩

/-- C17: `Insert` and `Query` never change `dim`, `l`, `m`, `w`, `a` or `b`:
after any sequence of insertions and queries, returned or panicked, the six
parameters are those of the start and `Hash` computes for every point what it
computed at the start (`Hash` itself only reads the index). -/
theorem parameters_never_mutated (env : Env) (lsh : Index env) (ops : List (Op env))
    (p : Point env) :
    (runOps env ops lsh).dim = lsh.dim ∧ (runOps env ops lsh).l = lsh.l ∧
      (runOps env ops lsh).m = lsh.m ∧ (runOps env ops lsh).w = lsh.w ∧
      (runOps env ops lsh).a = lsh.a ∧ (runOps env ops lsh).b = lsh.b ∧
      Hash env (runOps env ops lsh) p = Hash env lsh p := by
  obtain ⟨h1, h2, h3, h4, h5, h6⟩ := runOps_settings ops lsh
  exact ⟨h1, h2, h3, h4, h5, h6, Hash_congr _ _ _ h2 h3 h5 h6 h4⟩

/-! ## Theorems on `Hash` -/

/-- C15: for every point that the index can hash (for a dot product that
needs equal lengths: a point of dimension `dim`), `Hash` returns exactly `l`
fingerprints, and the `i`-th one is the concatenation, for `j = 0..m-1` in
order, of the encodings of `(dot(p, a[i][j]) + b[i][j]) / w`. -/
theorem Hash_fingerprints (env : Env) (lsh : Index env) (p : Point env)
    (hp : Hashable env lsh p) :
    ∃ hvs, Hash env lsh p = .ok hvs ∧ hvs.length = lsh.l.toNat ∧
      ∀ i, i < lsh.l.toNat → ∃ vals : List env.F, vals.length = lsh.m.toNat ∧
        (∀ j, j < lsh.m.toNat →
          ∃ (ai : List (Point env)) (aij : Point env) (d : env.F) (bi : List env.F)
            (bij : env.F),
            lsh.a[i]? = some ai ∧ ai[j]? = some aij ∧ env.dot p aij = .ok d ∧
              lsh.b[i]? = some bi ∧ bi[j]? = some bij ∧
              vals[j]? = some (env.div (env.add d bij) lsh.w)) ∧
        hvs[i]? = some (String.join (vals.map env.sprintf16x)) := by
  obtain ⟨hvs, hh, _⟩ := Hash_returns lsh p hp
  obtain ⟨h1, h2⟩ := Hash_spec lsh p hvs hh
  exact ⟨hvs, hh, h1, h2⟩

/-- Witness of C15: `Hash` on `demoIndex` and the point `[3, 4]`. -/
theorem Hash_fingerprints_witness :
    ∃ hvs, Hash intEnv demoIndex [3, 4] = .ok hvs ∧ hvs.length = 2 ∧
      ∀ i, i < 2 → ∃ vals : List Int, vals.length = 1 ∧
        (∀ j, j < 1 →
          ∃ (ai : List (List Int)) (aij : List Int) (d : Int) (bi : List Int) (bij : Int),
            demoIndex.a[i]? = some ai ∧ ai[j]? = some aij ∧ intDot [3, 4] aij = .ok d ∧
              demoIndex.b[i]? = some bi ∧ bi[j]? = some bij ∧
              vals[j]? = some ((d + bij) / 2)) ∧
        hvs[i]? = some (String.join (vals.map intSprintf)) :=
  Hash_fingerprints intEnv demoIndex [3, 4] (demoIndex_hashable _ 3 4)

/-- C13 (evaluation): with bucket width `w = 4`, projection vector `(1)` and
offset `0`, the points `(1)` and `(2)` have the quantized values `1/4` and
`1/2`, both in the band of floor `0`, and `Hash` gives them different
fingerprints: the quotient is rendered as it is, it is never floored. -/
theorem Hash_separates_one_band :
    hashValue fracEnv bandIndex [Frac.ofInt 1] 0 0 = .ok ⟨1, 4⟩ ∧
      hashValue fracEnv bandIndex [Frac.ofInt 2] 0 0 = .ok ⟨1, 2⟩ ∧
      Frac.floor ⟨1, 4⟩ = 0 ∧ Frac.floor ⟨1, 2⟩ = 0 ∧
      Hash fracEnv bandIndex [Frac.ofInt 1] = .ok ["0x1.0000000000000000p-02"] ∧
      Hash fracEnv bandIndex [Frac.ofInt 2] = .ok ["0x1.0000000000000000p-01"] :=
  ⟨rfl, rfl, by decide, by decide, rfl, rfl⟩

/-- C14 (evaluation): with one hash function (`m = 1`) the fingerprint of the
point `(1)` has 24 characters and the one of `(-7)` has 25, not 16: the
quotient is rendered as a `float64`, with its sign, `0x1.`, 16 digits of
fraction, `p` and a signed decimal exponent. -/
theorem Hash_fingerprint_not_16_wide :
    bandIndex.m = 1 ∧
      (∃ hv, Hash fracEnv bandIndex [Frac.ofInt 1] = .ok [hv] ∧ hv.length = 24) ∧
      (∃ hv, Hash fracEnv bandIndex [Frac.ofInt (-7)] = .ok [hv] ∧ hv.length = 25) :=
  ⟨rfl, ⟨_, rfl, by decide⟩, ⟨_, rfl, by decide⟩⟩

/-! ## Theorems on an index built by `NewLshSettings` -/

/-- C19 (evaluation): on the index returned by `NewLshSettings(2, 1, 1, 4)`,
which has `l = 1` and no table, `Insert("7", (0, 0))` and then `Query((0, 0))`
return without panic and `Query` does not send `"7"`. -/
theorem Query_after_Insert_on_new_index :
    ∃ lsh, NewLshSettings intEnv 2 1 1 (4 : Int) = .ok lsh ∧ lsh.l = 1 ∧
      (Insert intEnv lsh "7" [0, 0]).2 = none ∧
      (Query intEnv (Insert intEnv lsh "7" [0, 0]).1 [0, 0]).2 = none ∧
      "7" ∉ (Query intEnv (Insert intEnv lsh "7" [0, 0]).1 [0, 0]).1.out :=
  ⟨_, rfl, rfl, rfl, rfl, by decide⟩

/-- C20: on an index returned by `NewLshSettings(dim, l, m, w)` and then
changed only by calls of `Insert`, and for a point on which `dot` returns
against every vector of `dim` components (a point of dimension `dim`), no
index is out of range: `a[i][j]` and `b[i][j]` exist for all `i < l` and
`j < m`, `Hash` returns `l` fingerprints, there are at most that many tables,
and `Insert` and `Query` return without panic. -/
theorem indexes_in_range (env : Env) (dim l m : Int) (w : env.F) (lsh0 : Index env)
    (ops : List (Key × Point env)) (id : Key) (p : Point env)
    (h0 : NewLshSettings env dim l m w = .ok lsh0)
    (hdot : ∀ v : Point env, v.length = dim.toNat → ∃ d, env.dot p v = .ok d) :
    (∀ i, i < l.toNat → ∀ j, j < m.toNat →
        ∃ (ai : List (Point env)) (aij : Point env) (bi : List env.F) (bij : env.F),
          (insertAll env ops lsh0).a[i]? = some ai ∧ ai[j]? = some aij ∧
            (insertAll env ops lsh0).b[i]? = some bi ∧ bi[j]? = some bij) ∧
      (∃ hvs, Hash env (insertAll env ops lsh0) p = .ok hvs ∧ hvs.length = l.toNat ∧
        (insertAll env ops lsh0).tables.length ≤ hvs.length) ∧
      (Insert env (insertAll env ops lsh0) id p).2 = none ∧
      (Query env (insertAll env ops lsh0) p).2 = none := by
  have hws := insertAll_wellShaped ops lsh0 (NewLshSettings_wellShaped env dim l m w lsh0 h0)
  obtain ⟨f1, f2, f3, _, _⟩ := NewLshSettings_fields env dim l m w lsh0 h0
  obtain ⟨g1, g2, g3⟩ := insertAll_settings ops lsh0
  obtain ⟨lsh, hlsh⟩ : ∃ lsh, lsh = insertAll env ops lsh0 := ⟨_, rfl⟩
  rw [← hlsh] at hws g1 g2 g3 ⊢
  have e1 : lsh.dim = dim := g1.trans f1
  have e2 : lsh.l = l := g2.trans f2
  have e3 : lsh.m = m := g3.trans f3
  have hp : Hashable env lsh p := wellShaped_hashable lsh p hws (by rw [e1]; exact hdot)
  obtain ⟨hvs, hh, hlen⟩ := Hash_returns lsh p hp
  have htab : lsh.tables.length ≤ hvs.length := by rw [hlen]; exact hws.2.2.2.2.2
  refine ⟨?_, ⟨hvs, hh, by rw [hlen, e2], htab⟩, ?_, ?_⟩
  · intro i hi j hj
    obtain ⟨ai, aij, bi, bij, h1, h2, _, h4, h5⟩ :=
      wellShaped_params lsh hws i j (by rw [e2]; exact hi) (by rw [e3]; exact hj)
    exact ⟨ai, aij, bi, bij, h1, h2, h4, h5⟩
  · rw [Insert_of_hash lsh id p hvs hh]
    exact insertLoop_panic hvs id 0 lsh.tables (by omega)
  · simp only [Query, hh]
    exact queryLoop_panic _ _ _ _ (by omega)

/-- Witness of C20: the index of `NewLshSettings(2, 2, 1, 2)` over `intEnv`
after one insertion, and the point `[1, 2]`. -/
theorem indexes_in_range_witness :
    ∃ lsh0, NewLshSettings intEnv 2 2 1 (2 : Int) = .ok lsh0 ∧
      (∃ hvs, Hash intEnv (insertAll intEnv [("x", [3, 4])] lsh0) [1, 2] = .ok hvs ∧
        hvs.length = 2 ∧ (insertAll intEnv [("x", [3, 4])] lsh0).tables.length ≤ hvs.length) ∧
      (Insert intEnv (insertAll intEnv [("x", [3, 4])] lsh0) "y" [1, 2]).2 = none ∧
      (Query intEnv (insertAll intEnv [("x", [3, 4])] lsh0) [1, 2]).2 = none :=
  ⟨_, rfl, (indexes_in_range intEnv 2 2 1 (2 : Int) _ [("x", [3, 4])] "y" [1, 2] rfl
    (fun v hv => intDot_pair 1 2 v hv)).2⟩

end Lsh
